import Mathlib

/-!
Verification of the Chakravyuha obfuscation passes.

This file gives a shallow embedding, in Lean 4, of the three IR rewriting
passes of the POC-Chakravyuha repository (String Encryption, Control-Flow
Flattening, Fake Code Insertion) together with the safety-oracle and
report plumbing they share, and proves or refutes the frozen claims about
them.  Machine bytes are modelled as natural numbers below 256, with
wrap-around written explicitly as `% 256`; 32-bit values use `% 2 ^ 32`.
-/

namespace Chakravyuha

/-! ## Part A: byte-level ciphers of the String Encryption pass

Translated from `StringEncryptionPass.cpp` (the polymorphic pass):
`EncryptionScheme`, `encryptStringWithXOR`, `encryptStringWithAdd`,
`encryptStringWithSBox`, `generateSBox`, the per-scheme key obfuscation
in `StringEncryptionPass::run`, and the decryption performed by the stub
emitted by `injectCipherStub`.
-/

/-- `const unsigned int XOR_KEY_LENGTH = 16;` -/
def XOR_KEY_LENGTH : Nat := 16

/-- `const unsigned int SBOX_SIZE = 256;` -/
def SBOX_SIZE : Nat := 256

/-- `enum class EncryptionScheme` from StringEncryptionPass.cpp. -/
inductive EncryptionScheme where
  | XOR_WITH_INDEX
  | ADD_WITH_INDEX
  | SUB_FROM_CONSTANT
  | SBOX
deriving DecidableEq, Repr

/-- `encryptStringWithXOR`: `Encrypted[i] ^= key[i % XOR_KEY_LENGTH]`.
A string is a list of bytes (including its trailing null). -/
def encryptStringWithXOR (s key : List Nat) : List Nat :=
  (List.range s.length).map fun i =>
    (s.getD i 0) ^^^ (key.getD (i % XOR_KEY_LENGTH) 0)

/-- `encryptStringWithAdd`: `Encrypted[i] += key[i % XOR_KEY_LENGTH]`,
8-bit wrap-around made explicit. -/
def encryptStringWithAdd (s key : List Nat) : List Nat :=
  (List.range s.length).map fun i =>
    ((s.getD i 0) + (key.getD (i % XOR_KEY_LENGTH) 0)) % 256

/-- `encryptStringWithSBox`: `Encrypted.push_back(sbox[C])` for each byte. -/
def encryptStringWithSBox (s sbox : List Nat) : List Nat :=
  s.map fun c => sbox.getD c 0

/-- The inverse permutation construction from `generateSBox`:
`for (i = 0; i < SBOX_SIZE; ++i) invSbox[sbox[i]] = i;`. -/
def generateInvSBox (sbox : List Nat) : List Nat :=
  (List.range SBOX_SIZE).foldl (fun acc i => acc.set (sbox.getD i 0) i)
    (List.replicate SBOX_SIZE 0)

/-- The per-scheme key obfuscation computed in `StringEncryptionPass::run`
(lines building `obfuscatedModuleKey`): XOR scheme stores `k[j] ^ j`,
ADD stores `k[j] + j` (as a `uint8_t`), SUB stores `0xFF - k[j]`.
The S-box scheme stores no key bytes (it stores the inverse table). -/
def obfuscateKey : EncryptionScheme → List Nat → List Nat
  | .XOR_WITH_INDEX, k => (List.range k.length).map fun j => (k.getD j 0) ^^^ j
  | .ADD_WITH_INDEX, k => (List.range k.length).map fun j => ((k.getD j 0) + j) % 256
  | .SUB_FROM_CONSTANT, k => (List.range k.length).map fun j => 255 - (k.getD j 0)
  | .SBOX, k => k

/-- The key recovery performed at the entry of the stub emitted by
`injectCipherStub` (the `DeobfuscatedKeyAlloca` loop): XOR recomputes
`k'[i] ^ i`, ADD computes `k'[i] - i` (8-bit subtraction), SUB computes
`0xFF - k'[i]` (8-bit subtraction).  The S-box stub recovers no key. -/
def recoverKey : EncryptionScheme → List Nat → List Nat
  | .XOR_WITH_INDEX, ko => (List.range XOR_KEY_LENGTH).map fun i => (ko.getD i 0) ^^^ i
  | .ADD_WITH_INDEX, ko => (List.range XOR_KEY_LENGTH).map fun i =>
      ((ko.getD i 0) + 256 - i) % 256
  | .SUB_FROM_CONSTANT, ko => (List.range XOR_KEY_LENGTH).map fun i =>
      (255 + 256 - (ko.getD i 0)) % 256
  | .SBOX, ko => ko

/-- The stub's in-place decryption loop (`injectCipherStub`, the
`loop_body` block): ADD subtracts the recovered key byte (8-bit), XOR and
SUB xor it, and the S-box stub looks the byte up in the inverse table. -/
def stubDecryptLoop (scheme : EncryptionScheme)
    (cipher key invSbox : List Nat) : List Nat :=
  (List.range cipher.length).map fun i =>
    let c := cipher.getD i 0
    match scheme with
    | .ADD_WITH_INDEX => (c + 256 - key.getD (i % XOR_KEY_LENGTH) 0) % 256
    | .XOR_WITH_INDEX => c ^^^ key.getD (i % XOR_KEY_LENGTH) 0
    | .SUB_FROM_CONSTANT => c ^^^ key.getD (i % XOR_KEY_LENGTH) 0
    | .SBOX => invSbox.getD c 0

/-- The full decryption performed by the emitted stub: first recover the
key from its stored obfuscated form, then run the decryption loop. -/
def stubDecrypt (scheme : EncryptionScheme)
    (cipher storedKey invSbox : List Nat) : List Nat :=
  stubDecryptLoop scheme cipher (recoverKey scheme storedKey) invSbox

/-- Scheme dispatch of `StringEncryptionPass::run`: which encryption
routine runs for each scheme (ADD uses `encryptStringWithAdd`, XOR and
SUB use `encryptStringWithXOR`, SBOX uses `encryptStringWithSBox`). -/
def encryptForScheme (scheme : EncryptionScheme)
    (s key sbox : List Nat) : List Nat :=
  match scheme with
  | .ADD_WITH_INDEX => encryptStringWithAdd s key
  | .XOR_WITH_INDEX => encryptStringWithXOR s key
  | .SUB_FROM_CONSTANT => encryptStringWithXOR s key
  | .SBOX => encryptStringWithSBox s sbox

/-! ### Helper lemmas for the round trip -/

theorem getD_map_range (f : Nat → Nat) (n i : Nat) (h : i < n) :
    (((List.range n).map f).getD i 0) = f i := by
  rw [List.getD_eq_getElem _ _ (by simpa using h)]
  simp

theorem length_map_range (f : Nat → Nat) (n : Nat) :
    ((List.range n).map f).length = n := by simp

/-- Entries the fold never writes keep their value. -/
theorem foldl_set_getD_notin (g : Nat → Nat) (L : List Nat)
    (acc : List Nat) (p : Nat) (h : ∀ i ∈ L, g i ≠ p) :
    (L.foldl (fun a i => a.set (g i) i) acc).getD p 0 = acc.getD p 0 := by
  induction L generalizing acc with
  | nil => rfl
  | cons i L ih =>
    simp only [List.foldl_cons]
    rw [ih _ fun j hj => h j (List.mem_cons_of_mem _ hj)]
    have hne : g i ≠ p := h i (List.mem_cons_self _ _)
    simp [List.getD_eq_getElem?_getD, List.getElem?_set_ne hne]

/-- The entry written for `j` (uniquely, by injectivity) ends holding `j`. -/
theorem foldl_set_getD_mem (g : Nat → Nat) (L : List Nat) (acc : List Nat)
    (j : Nat) (hrange : g j < acc.length) (hmem : j ∈ L) (hnd : L.Nodup)
    (hinj : ∀ i ∈ L, g i = g j → i = j) :
    (L.foldl (fun a i => a.set (g i) i) acc).getD (g j) 0 = j := by
  induction L generalizing acc with
  | nil => cases hmem
  | cons i L ih =>
    simp only [List.foldl_cons]
    rcases List.mem_cons.mp hmem with h | hj
    · subst h
      have hnotin : ∀ i' ∈ L, g i' ≠ g j := by
        intro i' hi' he
        have : i' = j := hinj i' (List.mem_cons_of_mem _ hi') he
        subst this
        exact (List.nodup_cons.mp hnd).1 hi'
      rw [foldl_set_getD_notin g L _ _ hnotin]
      rw [List.getD_eq_getElem _ _ (by simpa using hrange)]
      simp [List.getElem_set]
    · exact ih _ (by simpa using hrange) hj (List.nodup_cons.mp hnd).2
        fun i' hi' => hinj i' (List.mem_cons_of_mem _ hi')

/-- The stub's key recovery inverts the per-scheme key obfuscation
(for the three key-based schemes). -/
theorem recoverKey_obfuscateKey (scheme : EncryptionScheme) (k : List Nat)
    (hlen : k.length = XOR_KEY_LENGTH) (hb : ∀ b ∈ k, b < 256)
    (hns : scheme ≠ .SBOX) :
    recoverKey scheme (obfuscateKey scheme k) = k := by
  cases scheme with
  | SBOX => exact absurd rfl hns
  | XOR_WITH_INDEX =>
    apply List.ext_getElem (by simp [recoverKey, hlen])
    intro i h1 h2
    have hi : i < XOR_KEY_LENGTH := by rw [← hlen]; exact h2
    simp only [recoverKey, List.getElem_map, List.getElem_range]
    rw [show obfuscateKey .XOR_WITH_INDEX k
        = (List.range k.length).map (fun j => (k.getD j 0) ^^^ j) from rfl]
    rw [getD_map_range _ _ _ (by omega), List.getD_eq_getElem _ _ h2]
    exact Nat.xor_cancel_right _ _
  | ADD_WITH_INDEX =>
    apply List.ext_getElem (by simp [recoverKey, hlen])
    intro i h1 h2
    have hi : i < XOR_KEY_LENGTH := by rw [← hlen]; exact h2
    simp only [recoverKey, List.getElem_map, List.getElem_range]
    rw [show obfuscateKey .ADD_WITH_INDEX k
        = (List.range k.length).map (fun j => ((k.getD j 0) + j) % 256) from rfl]
    rw [getD_map_range _ _ _ (by omega), List.getD_eq_getElem _ _ h2]
    have hklt : k[i] < 256 := hb _ (List.getElem_mem _)
    have hilt : i < 16 := hi
    omega
  | SUB_FROM_CONSTANT =>
    apply List.ext_getElem (by simp [recoverKey, hlen])
    intro i h1 h2
    have hi : i < XOR_KEY_LENGTH := by rw [← hlen]; exact h2
    simp only [recoverKey, List.getElem_map, List.getElem_range]
    rw [show obfuscateKey .SUB_FROM_CONSTANT k
        = (List.range k.length).map (fun j => 255 - (k.getD j 0)) from rfl]
    rw [getD_map_range _ _ _ (by omega), List.getD_eq_getElem _ _ h2]
    have hklt : k[i] < 256 := hb _ (List.getElem_mem _)
    omega

/-- `generateInvSBox` inverts the S-box on every byte below 256, when the
box is a permutation of 0..255. -/
theorem generateInvSBox_getD (sbox : List Nat) (hlen : sbox.length = SBOX_SIZE)
    (hnd : sbox.Nodup) (hv : ∀ v ∈ sbox, v < 256) (p : Nat) (hp : p < 256) :
    (generateInvSBox sbox).getD (sbox.getD p 0) 0 = p := by
  have hpl : p < sbox.length := by rw [hlen]; exact hp
  apply foldl_set_getD_mem (fun i => sbox.getD i 0) (List.range SBOX_SIZE)
  · rw [List.length_replicate, List.getD_eq_getElem _ _ hpl]
    exact hv _ (List.getElem_mem _)
  · simpa [SBOX_SIZE] using hp
  · exact List.nodup_range _
  · intro i hi he
    have hil : i < sbox.length := by
      rw [hlen]; simpa [SBOX_SIZE] using hi
    rw [List.getD_eq_getElem _ _ hil, List.getD_eq_getElem _ _ hpl] at he
    exact (hnd.getElem_inj_iff).mp he

/-- **C2.** For each of the four cipher schemes (XOR-with-key,
ADD-with-key, SUB-from-constant, S-Box) and for every string `s` of
length 0..1024 plus its trailing null, every 16-byte key `k` and (for
S-Box) every permutation of 0..255, the decryption performed by the
emitted stub — which first recovers `k` from its stored obfuscated form
(`k'[i] = k[i]^i` for XOR, `k'[i] = k[i]+i` for ADD, `k'[i] = 0xFF-k[i]`
for SUB) and then inverts the encryption — applied to the encryption of
`s` yields `s` byte-for-byte, including the trailing null (the byte list
`s` contains every array byte, the terminator included). -/
theorem c2_stub_decrypt_roundtrip (scheme : EncryptionScheme)
    (s key sbox : List Nat)
    (hs : ∀ b ∈ s, b < 256) (hslen : s.length ≤ 1025)
    (hklen : key.length = XOR_KEY_LENGTH) (hkb : ∀ b ∈ key, b < 256)
    (hsblen : sbox.length = SBOX_SIZE) (hsbnd : sbox.Nodup)
    (hsbv : ∀ v ∈ sbox, v < 256) :
    stubDecrypt scheme (encryptForScheme scheme s key sbox)
      (obfuscateKey scheme key) (generateInvSBox sbox) = s := by
  have hkey : ∀ i, key.getD (i % XOR_KEY_LENGTH) 0 < 256 := by
    intro i
    have hlt : i % XOR_KEY_LENGTH < key.length := by
      rw [hklen]
      exact Nat.mod_lt _ (by norm_num [XOR_KEY_LENGTH])
    rw [List.getD_eq_getElem _ _ hlt]
    exact hkb _ (List.getElem_mem _)
  cases scheme with
  | XOR_WITH_INDEX =>
    rw [stubDecrypt,
      recoverKey_obfuscateKey _ _ hklen hkb (by intro h; cases h)]
    apply List.ext_getElem
      (by simp [stubDecryptLoop, encryptForScheme, encryptStringWithXOR])
    intro i h1 h2
    simp only [stubDecryptLoop, List.getElem_map, List.getElem_range]
    have hci : i < (encryptForScheme .XOR_WITH_INDEX s key sbox).length := by
      simpa [stubDecryptLoop] using h1
    rw [List.getD_eq_getElem _ _ hci]
    simp only [encryptForScheme, encryptStringWithXOR, List.getElem_map,
      List.getElem_range]
    rw [List.getD_eq_getElem _ _ h2]
    exact Nat.xor_cancel_right _ _
  | SUB_FROM_CONSTANT =>
    rw [stubDecrypt,
      recoverKey_obfuscateKey _ _ hklen hkb (by intro h; cases h)]
    apply List.ext_getElem
      (by simp [stubDecryptLoop, encryptForScheme, encryptStringWithXOR])
    intro i h1 h2
    simp only [stubDecryptLoop, List.getElem_map, List.getElem_range]
    have hci : i < (encryptForScheme .SUB_FROM_CONSTANT s key sbox).length := by
      simpa [stubDecryptLoop] using h1
    rw [List.getD_eq_getElem _ _ hci]
    simp only [encryptForScheme, encryptStringWithXOR, List.getElem_map,
      List.getElem_range]
    rw [List.getD_eq_getElem _ _ h2]
    exact Nat.xor_cancel_right _ _
  | ADD_WITH_INDEX =>
    rw [stubDecrypt,
      recoverKey_obfuscateKey _ _ hklen hkb (by intro h; cases h)]
    apply List.ext_getElem
      (by simp [stubDecryptLoop, encryptForScheme, encryptStringWithAdd])
    intro i h1 h2
    simp only [stubDecryptLoop, List.getElem_map, List.getElem_range]
    have hci : i < (encryptForScheme .ADD_WITH_INDEX s key sbox).length := by
      simpa [stubDecryptLoop] using h1
    rw [List.getD_eq_getElem _ _ hci]
    simp only [encryptForScheme, encryptStringWithAdd, List.getElem_map,
      List.getElem_range]
    rw [List.getD_eq_getElem _ _ h2]
    have hsi : s[i] < 256 := hs _ (List.getElem_mem _)
    have hki := hkey i
    omega
  | SBOX =>
    apply List.ext_getElem
      (by simp [stubDecrypt, stubDecryptLoop, encryptForScheme,
        encryptStringWithSBox])
    intro i h1 h2
    simp only [stubDecrypt, stubDecryptLoop, List.getElem_map,
      List.getElem_range]
    have hci : i < (encryptForScheme .SBOX s key sbox).length := by
      simpa [stubDecrypt, stubDecryptLoop] using h1
    rw [List.getD_eq_getElem _ _ hci]
    simp only [encryptForScheme, encryptStringWithSBox, List.getElem_map]
    exact generateInvSBox_getD sbox hsblen hsbnd hsbv s[i]
      (hs _ (List.getElem_mem _))

/-- Witness for C2: a concrete round trip through the ADD scheme (the
hypotheses are discharged at a concrete string, key and S-box). -/
theorem c2_stub_decrypt_roundtrip_witness :
    stubDecrypt .ADD_WITH_INDEX
      (encryptForScheme .ADD_WITH_INDEX [72, 105, 33, 0]
        [1, 2, 3, 4, 5, 6, 7, 8, 9, 10, 11, 12, 13, 250, 255, 0]
        (List.range 256))
      (obfuscateKey .ADD_WITH_INDEX
        [1, 2, 3, 4, 5, 6, 7, 8, 9, 10, 11, 12, 13, 250, 255, 0])
      (generateInvSBox (List.range 256)) = [72, 105, 33, 0] :=
  c2_stub_decrypt_roundtrip .ADD_WITH_INDEX
    [72, 105, 33, 0] [1, 2, 3, 4, 5, 6, 7, 8, 9, 10, 11, 12, 13, 250, 255, 0]
    (List.range 256)
    (by decide) (by decide) (by decide) (by decide)
    (by simp [SBOX_SIZE]) (List.nodup_range _)
    (by intro v hv; simpa using List.mem_range.mp hv)

/-! ## Part B: the String Encryption pass at module level

Translated from `StringEncryptionPass::run` (the polymorphic pass): the
selection filter, the unsafe-function fixed point, the per-string loop
body, and the module updates it performs.  Also the earliest pass in the
same translation unit (the XOR-0xAB pass) for its erasure behavior.
-/

namespace SE

/-- An instruction, as far as the String Encryption pass inspects the
instruction stream of a function: inline-assembly call sites, direct
calls (with the callee name) and everything else. -/
inductive SInstr where
  | asmCall
  | call (callee : String)
  | otherInstr
deriving DecidableEq, Repr

/-- A function: its name and its instruction stream (the pass walks
`instructions(F)` across all blocks, so blocks are not split out). -/
structure Func where
  name : String
  instrs : List SInstr
deriving DecidableEq, Repr

/-- One entry of a global variable's LLVM use list, as the pass
distinguishes them: an instruction user (with its enclosing function) or
a constant-expression user. -/
inductive GUser where
  | instrUser (inFunc : String)
  | constUser
deriving DecidableEq, Repr

/-- A global variable initializer, as far as the pass inspects it:
a ConstantDataArray of `elemBits`-bit integers with the given element
values, a ConstantAggregateZero, or a function-pointer initializer. -/
inductive GInit where
  | cda (elemBits : Nat) (elems : List Nat)
  | zeroInit (n : Nat)
  | funcPtr (f : String)
deriving DecidableEq, Repr

structure GlobalVar where
  name : String
  isConstant : Bool
  init : Option GInit
  users : List GUser
deriving DecidableEq, Repr

structure Module where
  globals : List GlobalVar
  functions : List Func
deriving DecidableEq, Repr

/-- `CDA->getAsString()`: the raw bytes of the array initializer,
trailing terminator included. -/
def getAsString (g : GlobalVar) : List Nat :=
  match g.init with
  | some (.cda _ bs) => bs
  | _ => []

/-- The selection filter at the top of `StringEncryptionPass::run`:
constant, has an initializer, the initializer is a `ConstantDataArray`,
and `CDA->isString()` holds — in LLVM, `isString` only checks that the
element type is an 8-bit integer. -/
def isSelected (g : GlobalVar) : Bool :=
  g.isConstant &&
    match g.init with
    | some (.cda bits _) => bits == 8
    | _ => false

/-- The seed of the unsafe-function scan: a function containing an
inline-assembly call, or a direct call to `setjmp`, `_setjmp` or
`longjmp` by name. -/
def baseUnsafeFn (f : Func) : Bool :=
  f.instrs.any fun i =>
    match i with
    | .asmCall => true
    | .call n => n == "setjmp" || n == "_setjmp" || n == "longjmp"
    | .otherInstr => false

/-- Whether `f` contains a direct call to a function already in the
unsafe set. -/
def callsUnsafeFn (S : List String) (f : Func) : Bool :=
  f.instrs.any fun i =>
    match i with
    | .call n => S.contains n
    | _ => false

/-- One `for (Function &F : M)` sweep of the transitive-closure loop.
The C++ inserts into the very set it consults, so a function marked
earlier in the sweep propagates to callers later in the same sweep. -/
def sweep (fns : List Func) (S : List String) : List String :=
  fns.foldl
    (fun S f =>
      if S.contains f.name then S
      else if callsUnsafeFn S f then S ++ [f.name] else S) S

/-- The `do { ... } while (size grew)` loop around the sweep. -/
def closeUnsafeLoop (fns : List Func) : Nat → List String → List String
  | 0, S => S
  | fuel + 1, S =>
    let T := sweep fns S
    if T.length = S.length then T else closeUnsafeLoop fns fuel T

/-- The unsafe-function set computed at the top of
`StringEncryptionPass::run`: the base scan, then the closure loop (the
loop runs until no growth; `fns.length + 1` rounds always suffice).
The computation only reads the module; it is a pure function. -/
def computeUnsafeSet (fns : List Func) : List String :=
  closeUnsafeLoop fns (fns.length + 1) ((fns.filter baseUnsafeFn).map Func.name)

/-- The skip test of the per-string loop: some use of the global is an
instruction whose enclosing function is in the unsafe set. -/
def usedInUnsafeFn (unsafeFns : List String) (g : GlobalVar) : Bool :=
  g.users.any fun u =>
    match u with
    | .instrUser f => unsafeFns.contains f
    | .constUser => false

end SE

end Chakravyuha

namespace Chakravyuha

namespace SE

/-- The closure property the claim describes: the set contains every
function satisfying the base rule (inline asm / setjmp family) and every
function that directly calls a function already in the set. -/
def UnsafeClosedSet (fns : List Func) (T : List String) : Prop :=
  (∀ f ∈ fns, baseUnsafeFn f = true → f.name ∈ T) ∧
  (∀ f ∈ fns, (∃ n, SInstr.call n ∈ f.instrs ∧ n ∈ T) → f.name ∈ T)

theorem sweep_cons (f : Func) (fns : List Func) (S : List String) :
    sweep (f :: fns) S
      = sweep fns
          (if S.contains f.name then S
           else if callsUnsafeFn S f then S ++ [f.name] else S) := by
  simp [sweep]

/-- A sweep only appends, and appends only names of module functions not
already present. -/
theorem sweep_append (fns : List Func) (S : List String) :
    ∃ e, sweep fns S = S ++ e ∧
      ∀ x ∈ e, x ∈ fns.map Func.name ∧ x ∉ S := by
  induction fns generalizing S with
  | nil => exact ⟨[], by simp [sweep]⟩
  | cons f fns ih =>
    rw [sweep_cons]
    by_cases h1 : S.contains f.name
    · simp only [h1, if_true]
      obtain ⟨e, he, hx⟩ := ih S
      exact ⟨e, he, fun x hxe =>
        ⟨List.mem_cons_of_mem _ (hx x hxe).1, (hx x hxe).2⟩⟩
    · simp only [h1, if_false]
      by_cases h2 : callsUnsafeFn S f
      · simp only [h2, if_true]
        obtain ⟨e, he, hx⟩ := ih (S ++ [f.name])
        refine ⟨f.name :: e, by simpa using he, ?_⟩
        intro x hxe
        rcases List.mem_cons.mp hxe with rfl | hxe
        · exact ⟨by simp, fun hc => h1 (List.elem_eq_true_of_mem hc)⟩
        · refine ⟨List.mem_cons_of_mem _ (hx x hxe).1, fun hc => ?_⟩
          exact (hx x hxe).2 (List.mem_append_left _ hc)
      · simp only [h2, if_false]
        obtain ⟨e, he, hx⟩ := ih S
        exact ⟨e, he, fun x hxe =>
          ⟨List.mem_cons_of_mem _ (hx x hxe).1, (hx x hxe).2⟩⟩

/-- If a sweep changes nothing, the set is closed under the call rule. -/
theorem sweep_fix_closed (fns : List Func) (S : List String)
    (hfix : sweep fns S = S) :
    ∀ f ∈ fns, f.name ∉ S → callsUnsafeFn S f = false := by
  induction fns with
  | nil => intro f hf; cases hf
  | cons g fns ih =>
    intro f hf hnot
    rw [sweep_cons] at hfix
    by_cases h1 : S.contains g.name
    · rw [if_pos h1] at hfix
      rcases List.mem_cons.mp hf with rfl | hf
      · exact absurd (List.mem_of_elem_eq_true h1) hnot
      · exact ih hfix f hf hnot
    · rw [if_neg h1] at hfix
      by_cases h2 : callsUnsafeFn S g
      · rw [if_pos h2] at hfix
        obtain ⟨e, he, -⟩ := sweep_append fns (S ++ [g.name])
        rw [he] at hfix
        have : S.length + (1 + e.length) = S.length := by
          simpa [List.length_append, Nat.add_assoc] using congrArg List.length hfix
        omega
      · rw [if_neg h2] at hfix
        rcases List.mem_cons.mp hf with rfl | hf
        · exact (Bool.eq_false_iff.mpr h2)
        · exact ih hfix f hf hnot

/-- Measure for the closure loop: how many function-name occurrences are
not yet in the set. -/
def mNames (fns : List Func) (S : List String) : Nat :=
  ((fns.map Func.name).filter (fun n => !(S.contains n))).length

theorem mNames_le_length (fns : List Func) (S : List String) :
    mNames fns S ≤ fns.length := by
  calc ((fns.map Func.name).filter (fun n => !(S.contains n))).length
      ≤ (fns.map Func.name).length := List.length_filter_le _ _
    _ = fns.length := List.length_map _ _

theorem mNames_append_lt (fns : List Func) (S e : List String)
    (he : e ≠ [])
    (hx : ∀ x ∈ e, x ∈ fns.map Func.name ∧ x ∉ S) :
    mNames fns (S ++ e) < mNames fns S := by
  have himp : ∀ n, (!((S ++ e).contains n)) = true → (!(S.contains n)) = true := by
    intro n hn
    rw [Bool.not_eq_true'] at hn ⊢
    cases hq : S.contains n with
    | false => rfl
    | true =>
      have hm : (S ++ e).contains n = true :=
        List.elem_eq_true_of_mem
          (List.mem_append_left _ (List.mem_of_elem_eq_true hq))
      rw [hm] at hn
      cases hn
  have hsub : List.Sublist
      ((fns.map Func.name).filter (fun n => !((S ++ e).contains n)))
      ((fns.map Func.name).filter (fun n => !(S.contains n))) :=
    List.monotone_filter_right _ himp
  rcases List.exists_cons_of_ne_nil he with ⟨x, e1, rfl⟩
  have hxm := hx x (by simp)
  have hmemq : x ∈ (fns.map Func.name).filter (fun n => !(S.contains n)) := by
    rw [List.mem_filter]
    refine ⟨hxm.1, ?_⟩
    rw [Bool.not_eq_true']
    cases hc : S.contains x with
    | false => rfl
    | true => exact absurd (List.mem_of_elem_eq_true hc) hxm.2
  have hnotp : x ∉ (fns.map Func.name).filter
      (fun n => !((S ++ (x :: e1)).contains n)) := by
    rw [List.mem_filter]
    rintro ⟨-, hq⟩
    rw [Bool.not_eq_true'] at hq
    have hm : (S ++ (x :: e1)).contains x = true :=
      List.elem_eq_true_of_mem (by simp)
    rw [hm] at hq
    cases hq
  rcases Nat.lt_or_ge ((fns.map Func.name).filter
      (fun n => !((S ++ (x :: e1)).contains n))).length
      ((fns.map Func.name).filter (fun n => !(S.contains n))).length with h | h
  · exact h
  · have heq := hsub.eq_of_length (Nat.le_antisymm hsub.length_le h)
    rw [heq] at hnotp
    exact absurd hmemq hnotp

/-- The starting set survives into the closure result. -/
theorem subset_closeUnsafeLoop (fns : List Func) :
    ∀ (fuel : Nat) (S : List String) (n : String), n ∈ S →
      n ∈ closeUnsafeLoop fns fuel S := by
  intro fuel
  induction fuel with
  | zero => intro S n hn; exact hn
  | succ fuel ih =>
    intro S n hn
    rw [closeUnsafeLoop]
    obtain ⟨e, he, -⟩ := sweep_append fns S
    by_cases hlen : (sweep fns S).length = S.length
    · simp only [hlen, if_true]
      rw [he]; exact List.mem_append_left _ hn
    · simp only [hlen, if_false]
      exact ih _ n (by rw [he]; exact List.mem_append_left _ hn)

/-- With enough fuel the closure loop reaches a fixed point. -/
theorem closeUnsafeLoop_fix (fns : List Func) :
    ∀ (fuel : Nat) (S : List String), mNames fns S < fuel →
      sweep fns (closeUnsafeLoop fns fuel S) = closeUnsafeLoop fns fuel S := by
  intro fuel
  induction fuel with
  | zero => intro S h; omega
  | succ fuel ih =>
    intro S hS
    rw [closeUnsafeLoop]
    obtain ⟨e, he, hx⟩ := sweep_append fns S
    by_cases hlen : (sweep fns S).length = S.length
    · simp only [hlen, if_true]
      have he0 : e = [] := by
        rw [he] at hlen
        simp only [List.length_append] at hlen
        exact List.eq_nil_of_length_eq_zero (by omega)
      rw [he, he0, List.append_nil]
      rw [he, he0, List.append_nil]
    · simp only [hlen, if_false]
      apply ih
      have hne : e ≠ [] := by
        intro h0
        rw [he, h0, List.append_nil] at hlen
        exact hlen rfl
      have := mNames_append_lt fns S e hne hx
      rw [← he] at this
      omega

/-- Anything a sweep adds lies in any closed superset. -/
theorem sweep_subset_closed (fns0 : List Func) (T : List String)
    (hcl : UnsafeClosedSet fns0 T) :
    ∀ (fns : List Func) (S : List String), (∀ f ∈ fns, f ∈ fns0) →
      (∀ n ∈ S, n ∈ T) → ∀ n ∈ sweep fns S, n ∈ T := by
  intro fns
  induction fns with
  | nil => intro S hsub hS n hn; exact hS n hn
  | cons f fns ih =>
    intro S hsub hS n hn
    rw [sweep_cons] at hn
    by_cases h1 : S.contains f.name
    · rw [if_pos h1] at hn
      exact ih S (fun g hg => hsub g (List.mem_cons_of_mem _ hg)) hS n hn
    · rw [if_neg h1] at hn
      by_cases h2 : callsUnsafeFn S f
      · rw [if_pos h2] at hn
        refine ih (S ++ [f.name])
          (fun g hg => hsub g (List.mem_cons_of_mem _ hg)) ?_ n hn
        intro m hm
        rcases List.mem_append.mp hm with hm | hm
        · exact hS m hm
        · have hmf : m = f.name := by simpa using hm
          subst hmf
          rcases List.any_eq_true.mp h2 with ⟨i, hi, hcall⟩
          apply hcl.2 f (hsub f (List.mem_cons_self _ _))
          cases i with
          | call c =>
            exact ⟨c, hi, hS c (List.mem_of_elem_eq_true hcall)⟩
          | asmCall => cases hcall
          | otherInstr => cases hcall
      · rw [if_neg h2] at hn
        exact ih S (fun g hg => hsub g (List.mem_cons_of_mem _ hg)) hS n hn

theorem closeUnsafeLoop_subset_closed (fns : List Func) (T : List String)
    (hcl : UnsafeClosedSet fns T) :
    ∀ (fuel : Nat) (S : List String), (∀ n ∈ S, n ∈ T) →
      ∀ n ∈ closeUnsafeLoop fns fuel S, n ∈ T := by
  intro fuel
  induction fuel with
  | zero => intro S hS n hn; exact hS n hn
  | succ fuel ih =>
    intro S hS n hn
    rw [closeUnsafeLoop] at hn
    by_cases hlen : (sweep fns S).length = S.length
    · rw [if_pos hlen] at hn
      exact sweep_subset_closed fns T hcl fns S (fun g hg => hg) hS n hn
    · rw [if_neg hlen] at hn
      exact ih _ (sweep_subset_closed fns T hcl fns S (fun g hg => hg) hS) n hn

/-- The per-string random draws of `StringEncryptionPass::run`, made
explicit parameters: the raw scheme draw (the pass reduces it mod 4),
the 16 `moduleKey` bytes (arithmetic schemes), and the shuffled S-box
(SBOX scheme). -/
structure RandomDraw where
  schemeIdx : Nat
  key : List Nat
  sbox : List Nat
deriving DecidableEq, Repr

/-- `static_cast<EncryptionScheme>(distrib(gen) % NUM_ENCRYPTION_SCHEMES)`. -/
def schemeOfIdx (n : Nat) : EncryptionScheme :=
  match n % 4 with
  | 0 => .XOR_WITH_INDEX
  | 1 => .ADD_WITH_INDEX
  | 2 => .SUB_FROM_CONSTANT
  | _ => .SBOX

/-- The effect of one iteration of the per-string loop of
`StringEncryptionPass::run` on the selected global and the module. -/
structure ProcessResult where
  keepOriginal : Bool          -- the original global stays in the module
  keptUsers : List GUser       -- its use list after the redirections
  newGlobals : List GlobalVar  -- inv-sbox, ciphertext, dispatch pointer
  newFuncs : List Func         -- decrypt stub and the dispatch functions
  counted : Bool               -- `R.stringsEncrypted++` happened
  usedId : Bool                -- `stringId++` happened
deriving DecidableEq, Repr

/-- The loop body when it `continue`s: nothing is created, nothing is
counted, the global and its use list stay as they were. -/
def skipResult (g : GlobalVar) : ProcessResult :=
  { keepOriginal := true, keptUsers := g.users, newGlobals := [],
    newFuncs := [], counted := false, usedId := false }

/-- One iteration of the per-string loop of `StringEncryptionPass::run`:
skip empty strings, skip strings used in unsafe functions, otherwise
encrypt under the drawn scheme, emit the ciphertext global (non-constant,
name `<gv>.enc`), for the SBOX scheme the inverse-table global
(constant, `inv_sbox_<id>`), the dispatch-pointer global
(`dispatch_ptr_<id>`, initialized to the slow dispatcher), the decryption
stub and the two dispatch functions; redirect every instruction use and
erase the original only if its use list became empty. -/
def processGlobal (unsafeFns : List String) (draw : RandomDraw)
    (stringId : Nat) (g : GlobalVar) : ProcessResult :=
  let s := getAsString g
  if s.isEmpty then skipResult g
  else if usedInUnsafeFn unsafeFns g then skipResult g
  else
    let scheme := schemeOfIdx draw.schemeIdx
    let cipher := encryptForScheme scheme s draw.key draw.sbox
    let decName := "chakravyuha_decrypt_" ++ toString stringId
    let fastName := "dispatch_fast_" ++ toString stringId
    let slowName := "dispatch_slow_" ++ toString stringId
    let invGlobals : List GlobalVar :=
      if scheme = .SBOX then
        [{ name := "inv_sbox_" ++ toString stringId, isConstant := true,
           init := some (.cda 8 (generateInvSBox draw.sbox)),
           users := [.instrUser decName] }]
      else []
    let encGV : GlobalVar :=
      { name := g.name ++ ".enc", isConstant := false,
        init := some (.cda 8 cipher),
        users := [.instrUser fastName, .instrUser slowName] }
    let dispatchPtrGV : GlobalVar :=
      { name := "dispatch_ptr_" ++ toString stringId, isConstant := false,
        init := some (.funcPtr slowName),
        users := g.users.filter (fun u => match u with
          | .instrUser _ => true | .constUser => false) }
    let keptUsers := g.users.filter (fun u => match u with
      | .instrUser _ => false | .constUser => true)
    { keepOriginal := !keptUsers.isEmpty,
      keptUsers := keptUsers,
      newGlobals := invGlobals ++ [encGV, dispatchPtrGV],
      newFuncs := [⟨decName, []⟩, ⟨fastName, []⟩, ⟨slowName, [.call decName]⟩],
      counted := true, usedId := true }

/-- Applying one loop iteration's result to the module: the original
global is updated in place (or erased when its use list emptied), the
globals created by `new GlobalVariable(M, ...)` are appended at the end,
as are the created functions. -/
def applyResult (M : Module) (g : GlobalVar) (r : ProcessResult) : Module :=
  { globals :=
      (if r.keepOriginal then
        M.globals.map fun h =>
          if h.name = g.name then { h with users := r.keptUsers } else h
      else M.globals.filter fun h => h.name ≠ g.name) ++ r.newGlobals,
    functions := M.functions ++ r.newFuncs }

/-- The result of one whole `StringEncryptionPass::run`. -/
structure RunResult where
  module : Module
  stringsEncrypted : Nat
deriving DecidableEq, Repr

/-- The per-string loop over the snapshot of selected globals.
`stringId` advances only for strings that were actually processed. -/
def runLoop (unsafeFns : List String) (draws : Nat → RandomDraw) :
    List GlobalVar → Module → Nat → Nat → RunResult
  | [], M, _, count => ⟨M, count⟩
  | g :: rest, M, stringId, count =>
    let r := processGlobal unsafeFns (draws stringId) stringId g
    runLoop unsafeFns draws rest (applyResult M g r)
      (if r.usedId then stringId + 1 else stringId)
      (if r.counted then count + 1 else count)

/-- `StringEncryptionPass::run`: select the string globals, return at
once if none, otherwise compute the unsafe set and process each selected
global in turn. -/
def seRun (M : Module) (draws : Nat → RandomDraw) : RunResult :=
  let selected := M.globals.filter isSelected
  if selected.isEmpty then ⟨M, 0⟩
  else runLoop (computeUnsafeSet M.functions) draws selected M 0 0

/-- Selection filter of the earliest pass in the same file (the
XOR-0xAB pass): additionally requires the Clang-style `.str` name. -/
def startsWithChars : List Char → List Char → Bool
  | [], _ => true
  | _ :: _, [] => false
  | a :: p, b :: s => a == b && startsWithChars p s

def oldPassSelected (g : GlobalVar) : Bool :=
  isSelected g
    && (startsWithChars ".str.".data g.name.data
        || startsWithChars ".str".data g.name.data)

/-- What the old pass does to one selected global, reduced to its
erasure behavior: empty strings are skipped; otherwise instruction uses
are redirected, constant users are skipped with a warning, and then
`GV->eraseFromParent()` runs unconditionally — whether or not users
remain (the pass prints an ERROR if they do, and erases anyway). -/
structure OldPassOutcome where
  usersAtErase : List GUser
  erased : Bool
deriving DecidableEq, Repr

def oldPassProcessGlobal (g : GlobalVar) : OldPassOutcome :=
  if (getAsString g).isEmpty then ⟨g.users, false⟩
  else
    { usersAtErase := g.users.filter fun u =>
        match u with
        | .constUser => true
        | .instrUser _ => false,
      erased := true }

end SE

end Chakravyuha

namespace Chakravyuha

namespace SE

/-- **C6.** The unsafe-function set computed by the String Encryption
pass is the least fixed point of: a function is unsafe if it contains an
inline-assembly call or a call to `setjmp`/`_setjmp`/`longjmp` by name,
or if it directly calls an unsafe function (so of two mutually recursive
functions, once one is unsafe both end up unsafe); and every string
global with an instruction user inside an unsafe function is skipped
entirely — the loop body leaves it untouched, creating and counting
nothing, so it stays a plaintext global.  The oracle itself
(`computeUnsafeSet`) is a pure function of the module: it mutates nothing.  -/
theorem c6_unsafe_least_fixed_point (M : Module) :
    (UnsafeClosedSet M.functions (computeUnsafeSet M.functions)
      ∧ ∀ T, UnsafeClosedSet M.functions T →
          ∀ n ∈ computeUnsafeSet M.functions, n ∈ T)
    ∧ ∀ (g : GlobalVar) (d : RandomDraw) (i : Nat),
        usedInUnsafeFn (computeUnsafeSet M.functions) g = true →
        processGlobal (computeUnsafeSet M.functions) d i g = skipResult g := by
  refine ⟨⟨⟨?_, ?_⟩, ?_⟩, ?_⟩
  · -- base rule is contained
    intro f hf hbase
    apply subset_closeUnsafeLoop
    exact List.mem_map.mpr ⟨f, List.mem_filter.mpr ⟨hf, hbase⟩, rfl⟩
  · -- call rule is contained
    intro f hf ⟨n, hcall, hnU⟩
    by_contra hnot
    have hfix : sweep M.functions (computeUnsafeSet M.functions)
        = computeUnsafeSet M.functions := by
      apply closeUnsafeLoop_fix
      have := mNames_le_length M.functions
        ((M.functions.filter baseUnsafeFn).map Func.name)
      omega
    have hfalse := sweep_fix_closed M.functions _ hfix f hf hnot
    have htrue : callsUnsafeFn (computeUnsafeSet M.functions) f = true :=
      List.any_eq_true.mpr
        ⟨.call n, hcall, List.elem_eq_true_of_mem hnU⟩
    rw [htrue] at hfalse
    cases hfalse
  · -- minimality
    intro T hcl n hn
    refine closeUnsafeLoop_subset_closed M.functions T hcl _ _ ?_ n hn
    intro m hm
    rcases List.mem_map.mp hm with ⟨f, hf, rfl⟩
    rcases List.mem_filter.mp hf with ⟨hfm, hbase⟩
    exact hcl.1 f hfm hbase
  · -- strings used in unsafe functions are skipped entirely
    intro g d i hu
    by_cases hemp : (getAsString g).isEmpty
    · simp [processGlobal, hemp]
    · simp [processGlobal, hemp, hu]

/-- Witness for C6: on a concrete module (one inline-asm function, one
caller of it), a global used from the caller is skipped by the loop
body. -/
theorem c6_unsafe_least_fixed_point_witness :
    usedInUnsafeFn
        (computeUnsafeSet (Module.mk
          [⟨".str", true, some (.cda 8 [72, 0]), [.instrUser "g"]⟩]
          [⟨"f", [.asmCall]⟩, ⟨"g", [.call "f"]⟩, ⟨"h", []⟩]).functions)
        ⟨".str", true, some (.cda 8 [72, 0]), [.instrUser "g"]⟩ = true
    ∧ processGlobal
        (computeUnsafeSet (Module.mk
          [⟨".str", true, some (.cda 8 [72, 0]), [.instrUser "g"]⟩]
          [⟨"f", [.asmCall]⟩, ⟨"g", [.call "f"]⟩, ⟨"h", []⟩]).functions)
        ⟨0, [], []⟩ 0
        ⟨".str", true, some (.cda 8 [72, 0]), [.instrUser "g"]⟩
      = skipResult ⟨".str", true, some (.cda 8 [72, 0]), [.instrUser "g"]⟩ :=
  ⟨by decide,
    (c6_unsafe_least_fixed_point (Module.mk
        [⟨".str", true, some (.cda 8 [72, 0]), [.instrUser "g"]⟩]
        [⟨"f", [.asmCall]⟩, ⟨"g", [.call "f"]⟩, ⟨"h", []⟩])).2
      ⟨".str", true, some (.cda 8 [72, 0]), [.instrUser "g"]⟩
      ⟨0, [], []⟩ 0 (by decide)⟩

/-- **C10.** The per-string loop of the String Encryption pass never
encrypts a string global whose content is empty: the loop body skips it
(no ciphertext global, no stub, no dispatch pointer, not counted, no
string id consumed), and applying that skip to the module leaves the
module unchanged. -/
theorem c10_empty_string_never_encrypted (unsafeFns : List String)
    (draw : RandomDraw) (stringId : Nat) (g : GlobalVar) (M : Module)
    (hemp : getAsString g = [])
    (huniq : ∀ h ∈ M.globals, h.name = g.name → h = g) :
    processGlobal unsafeFns draw stringId g = skipResult g
    ∧ applyResult M g (skipResult g) = M := by
  constructor
  · simp [processGlobal, hemp]
  · have hmap : M.globals.map
        (fun h => if h.name = g.name
          then { h with users := g.users } else h)
        = M.globals := by
      conv_rhs => rw [← List.map_id M.globals]
      apply List.map_congr_left
      intro h hh
      by_cases hn : h.name = g.name
      · rw [if_pos hn, huniq h hh hn]
        rfl
      · rw [if_neg hn]
        rfl
    simp only [applyResult, skipResult, Bool.not_false, if_pos]
    rw [hmap]
    simp

/-- Witness for C10: a concrete empty string global is skipped and the
concrete module is unchanged. -/
theorem c10_empty_string_never_encrypted_witness :
    processGlobal ["f"] ⟨1, [], []⟩ 4 ⟨".str", true, some (.cda 8 []), []⟩
        = skipResult ⟨".str", true, some (.cda 8 []), []⟩
    ∧ applyResult (Module.mk [⟨".str", true, some (.cda 8 []), []⟩] [])
        ⟨".str", true, some (.cda 8 []), []⟩
        (skipResult ⟨".str", true, some (.cda 8 []), []⟩)
      = Module.mk [⟨".str", true, some (.cda 8 []), []⟩] [] :=
  c10_empty_string_never_encrypted ["f"] ⟨1, [], []⟩ 4
    ⟨".str", true, some (.cda 8 []), []⟩
    (Module.mk [⟨".str", true, some (.cda 8 []), []⟩] [])
    (by decide) (by decide)

/-- **C9, refuted.** The old String Encryption pass (the first
implementation unit of StringEncryptionPass.cpp) erases a selected
string global unconditionally after redirecting its instruction users:
on a global with a constant-expression user, the erase runs while the
use list is still non-empty (the pass prints its own ERROR diagnostic
and erases anyway). -/
theorem c9_old_pass_erases_global_with_users :
    oldPassSelected ⟨".str", true, some (.cda 8 [65, 0]), [.constUser]⟩ = true
    ∧ (oldPassProcessGlobal
        ⟨".str", true, some (.cda 8 [65, 0]), [.constUser]⟩).erased = true
    ∧ (oldPassProcessGlobal
        ⟨".str", true, some (.cda 8 [65, 0]), [.constUser]⟩).usersAtErase
      = [.constUser] := by
  refine ⟨?_, ?_, ?_⟩ <;> decide

/-- **C9, amended and confirmed for the polymorphic pass.** The
polymorphic String Encryption pass erases the original global only when
its use list has become empty: if any user survives the redirection
(constant-expression users are not redirected), the global is kept. -/
theorem c9_new_pass_erases_only_when_use_empty
    (g : GlobalVar) (unsafeFns : List String) (draw : RandomDraw)
    (stringId : Nat)
    (hkeep : (processGlobal unsafeFns draw stringId g).keepOriginal = false) :
    (processGlobal unsafeFns draw stringId g).keptUsers = [] := by
  by_cases hemp : (getAsString g).isEmpty
  · simp [processGlobal, hemp, skipResult] at hkeep
  · by_cases hu : usedInUnsafeFn unsafeFns g
    · simp [processGlobal, hemp, hu, skipResult] at hkeep
    · simp only [processGlobal, hemp, hu, Bool.false_eq_true, if_false,
        Bool.not_eq_false'] at hkeep ⊢
      exact List.isEmpty_iff.mp hkeep

end SE

end Chakravyuha

namespace Chakravyuha

namespace SE

/-- A one-string module: `.str = "Hi\0"` used once from `main`. -/
def c5Mod : Module :=
  ⟨[⟨".str", true, some (.cda 8 [72, 105, 0]), [.instrUser "main"]⟩],
   [⟨"main", []⟩]⟩

/-- A run of the pass in which the random draw picks the S-Box scheme
(raw draw 3, `3 % 4 = 3`) with the identity permutation. -/
def c5SboxDraw : RandomDraw := ⟨3, [], List.range 256⟩

/-- A run of the pass in which the random draw picks the XOR scheme. -/
def c5XorDraw : RandomDraw := ⟨0, [7, 7, 7, 7, 7, 7, 7, 7, 7, 7, 7, 7, 7, 7, 7, 7], []⟩

set_option maxRecDepth 20000 in
/-- **C5, refuted.** Running the String Encryption pass twice is not
idempotent: after a first run that picks the S-Box scheme, the constant
`inv_sbox_0` global created by that run is itself a constant
`ConstantDataArray` of i8 (so `isString()` accepts it), it is selected
by the second run, and the second run encrypts one additional string —
the inverse-S-box table. -/
theorem c5_second_run_encrypts_inv_sbox :
    (((seRun c5Mod (fun _ => c5SboxDraw)).module.globals.filter
        isSelected).map GlobalVar.name = ["inv_sbox_0"])
    ∧ (seRun (seRun c5Mod (fun _ => c5SboxDraw)).module
        (fun _ => c5XorDraw)).stringsEncrypted = 1 := by
  constructor
  · rfl
  · rfl

end SE

end Chakravyuha

namespace Chakravyuha

namespace SE

/-! ### The emitted dispatch functions (`createDispatchFunctions`) -/

/-- Atomic memory ordering, as set by `setOrdering`. -/
inductive MemOrdering where
  | notAtomic
  | monotonic
deriving DecidableEq, Repr

/-- The instruction vocabulary of the emitted dispatch functions:
in-bounds GEP to the ciphertext, a call to the decryption stub, a store
to the dispatch-pointer global carrying its atomic ordering, a
compare-and-swap (representable, so its absence is meaningful), and the
return. -/
inductive DInstr where
  | gep (name base : String)
  | callStub (callee : String) (args : List String)
  | storeTo (dest value : String) (ordering : MemOrdering)
  | cmpxchg (dest expected newVal : String) (ordering : MemOrdering)
  | retPtr (v : String)
deriving DecidableEq, Repr

structure DFunc where
  name : String
  body : List DInstr
deriving DecidableEq, Repr

/-- `dispatch_fast_<id>`: return a pointer to the first byte of the
(by then decrypted) global. -/
def justDispatchFunc (stringId : Nat) (encName : String) : DFunc :=
  { name := "dispatch_fast_" ++ toString stringId,
    body := [.gep "jd.gep" encName, .retPtr "jd.gep"] }

/-- `dispatch_slow_<id>` (`DecryptAndDispatchF`): GEP to the ciphertext,
call the decryption stub on it, then a plain store of the fast
dispatcher into the dispatch pointer, with
`setOrdering(AtomicOrdering::Monotonic)`, then return the pointer. -/
def decryptAndDispatchFunc (stringId : Nat)
    (encName decName ptrName : String) : DFunc :=
  { name := "dispatch_slow_" ++ toString stringId,
    body := [.gep "dad.gep" encName,
             .callStub decName ["dad.gep"],
             .storeTo ptrName ("dispatch_fast_" ++ toString stringId)
               .monotonic,
             .retPtr "dad.gep"] }

/-- **C7, refuted.** The slow-dispatch function emitted by
`createDispatchFunctions` contains no compare-and-swap at all: the
decryption stub is called unconditionally first, and only afterwards is
the dispatch pointer updated, by a plain monotonic store.  So there is
no one-shot guard on the dispatch pointer before the stub executes, and
under concurrent first callers decryption is not exactly-once (the
monotonic-ordering half of the claim is the only part the code
satisfies). -/
theorem c7_slow_dispatch_has_no_cas (stringId : Nat)
    (encName decName ptrName : String) :
    (((decryptAndDispatchFunc stringId encName decName ptrName).body.all
      fun i => match i with
        | .cmpxchg _ _ _ _ => false
        | _ => true) = true)
    ∧ (decryptAndDispatchFunc stringId encName decName ptrName).body.take 2
        = [.gep "dad.gep" encName, .callStub decName ["dad.gep"]]
    ∧ (decryptAndDispatchFunc stringId encName decName ptrName).body[2]?
        = some (.storeTo ptrName ("dispatch_fast_" ++ toString stringId)
            .monotonic) :=
  ⟨rfl, rfl, rfl⟩

end SE

end Chakravyuha

namespace Chakravyuha

/-! ## Part C: the Control-Flow Flattening pass

Translated from the CFF implementation unit (`demoteValuesToMemory`,
`buildNextStateForTerm`, `isSupportedTerminator`,
`hasUnsupportedControlFlow`, `ControlFlowFlatteningPass::flattenFunction`
and `::run`).  Blocks are addressed by their index in the function's
block list; the entry block is index 0 (LLVM uses pointers, and the pass
only ever appends blocks, so indices are stable).
-/

namespace CFF

/-- A value operand: a named register, an integer constant, or undef. -/
inductive Val where
  | reg (name : String)
  | cint (n : Nat)
  | undef
deriving DecidableEq, Repr

/-- Instructions, as far as the pass creates or inspects them. `other`
stands for any remaining non-terminator instruction, with its name and
operand list. -/
inductive CInstr where
  | phi (name : String) (incomings : List (Val × Nat))
  | alloca (name : String)
  | load (name slot : String)
  | store (v : Val) (slot : String)
  | select (name : String) (cond tval fval : Val)
  | icmpeq (name : String) (v : Val) (c : Nat)
  | callInstr (name callee : String) (args : List Val)
  | asmCallInstr (name : String) (args : List Val)
  | other (name : String) (ops : List Val)
deriving DecidableEq, Repr

/-- Terminators (the supported ones, plus a stand-in for the
unsupported kinds: invoke, callbr, indirectbr, ...). -/
inductive Term where
  | br (dest : Nat)
  | condbr (cond : Val) (tdest fdest : Nat)
  | switch (v : Val) (dflt : Nat) (cases : List (Nat × Nat))
  | ret (v : Option Val)
  | unreachable
  | unsupportedTerm
deriving DecidableEq, Repr

/-- Successors, in LLVM's order (for a switch: default first). -/
def Term.succs : Term → List Nat
  | .br d => [d]
  | .condbr _ t f => [t, f]
  | .switch _ d cs => d :: cs.map Prod.snd
  | _ => []

/-- A basic block.  `term = none` models a block under construction
that has not been given a terminator yet (the dispatcher block at the
moment the pass aborts). -/
structure BBlock where
  isEHPad : Bool
  instrs : List CInstr
  term : Option Term
deriving DecidableEq, Repr, Inhabited

/-- A function: its block list (entry first) and the two flags the
pass's guards read. -/
structure Fn where
  isDecl : Bool
  isIntrinsic : Bool
  blocks : List BBlock
deriving DecidableEq, Repr, Inhabited

/-- `isSupportedTerminator`: branch, switch, return or unreachable. -/
def isSupportedTerminator : Option Term → Bool
  | some (.br _) => true
  | some (.condbr _ _ _) => true
  | some (.switch _ _ _) => true
  | some (.ret _) => true
  | some .unreachable => true
  | _ => false

/-- `hasUnsupportedControlFlow`: an EH pad or an unsupported
terminator anywhere. -/
def hasUnsupportedControlFlow (F : Fn) : Bool :=
  F.blocks.any fun b => b.isEHPad || !(isSupportedTerminator b.term)

/-- `chakravyuha::shouldSkipFunction`: inline assembly or a call to
`setjmp`/`_setjmp`/`longjmp` by name, anywhere in the function. -/
def shouldSkipFunction (F : Fn) : Bool :=
  F.blocks.any fun b => b.instrs.any fun i =>
    match i with
    | .asmCallInstr _ _ => true
    | .callInstr _ callee _ =>
        callee == "setjmp" || callee == "_setjmp" || callee == "longjmp"
    | _ => false

/-! ### SSA demotion (`demoteValuesToMemory`) -/

/-- The operand list of an instruction (each entry is one LLVM `Use`;
for a phi, the incoming values). -/
def instrOps : CInstr → List Val
  | .phi _ incs => incs.map Prod.fst
  | .alloca _ => []
  | .load _ _ => []
  | .store v _ => [v]
  | .select _ c t f => [c, t, f]
  | .icmpeq _ v _ => [v]
  | .callInstr _ _ args => args
  | .asmCallInstr _ args => args
  | .other _ ops => ops

/-- Rebuild an instruction with a rewritten operand list (always called
with a list of the original length). -/
def instrWithOps : CInstr → List Val → CInstr
  | .phi n incs, vs =>
      .phi n (List.zipWith (fun v (pr : Val × Nat) => (v, pr.2)) vs incs)
  | .alloca n, _ => .alloca n
  | .load n s, _ => .load n s
  | .store v s, vs => .store (vs.headD v) s
  | .select n c t f, vs => .select n (vs.getD 0 c) (vs.getD 1 t) (vs.getD 2 f)
  | .icmpeq n v c, vs => .icmpeq n (vs.headD v) c
  | .callInstr n f _, vs => .callInstr n f vs
  | .asmCallInstr n _, vs => .asmCallInstr n vs
  | .other n _, vs => .other n vs

/-- The operand list of a terminator (condition / scrutinee / returned
value). -/
def termOps : Option Term → List Val
  | some (.condbr c _ _) => [c]
  | some (.switch v _ _) => [v]
  | some (.ret (some v)) => [v]
  | _ => []

def termWithOps : Option Term → List Val → Option Term
  | some (.condbr c t f), vs => some (.condbr (vs.headD c) t f)
  | some (.switch v d cs), vs => some (.switch (vs.headD v) d cs)
  | some (.ret (some v)), vs => some (.ret (some (vs.headD v)))
  | t, _ => t

/-- The defined name of an instruction (a store defines nothing). -/
def instrName : CInstr → Option String
  | .phi n _ => some n
  | .alloca n => some n
  | .load n _ => some n
  | .store _ _ => none
  | .select n _ _ _ => some n
  | .icmpeq n _ _ => some n
  | .callInstr n _ _ => some n
  | .asmCallInstr n _ => some n
  | .other n _ => some n

/-- Insert at position `k` (appending when `k` exceeds the length). -/
def insertAt (k : Nat) (xs l : List CInstr) : List CInstr :=
  l.take k ++ xs ++ l.drop k

/-- Rewrite block `i` of the list in place. -/
def updateBlock : List BBlock → Nat → (BBlock → BBlock) → List BBlock
  | [], _, _ => []
  | b :: bs, 0, f => f b :: bs
  | b :: bs, i + 1, f => b :: updateBlock bs i f

/-- The number of leading phi nodes (`getFirstInsertionPt`). -/
def leadingPhis (l : List CInstr) : Nat :=
  (l.takeWhile fun i => match i with | .phi _ _ => true | _ => false).length

/-- Replace each occurrence of `reg p` in an operand list with a fresh
load from `slot` (one load per `Use`, as the pass does), returning the
rewritten operands, the loads, and the advanced fresh counter. -/
def substVals (p slot : String) : List Val → Nat → (List Val × List CInstr × Nat)
  | [], k => ([], [], k)
  | v :: vs, k =>
    if v = Val.reg p then
      let nm := p ++ ".reload." ++ toString k
      let (vs1, ls, k1) := substVals p slot vs (k + 1)
      (Val.reg nm :: vs1, CInstr.load nm slot :: ls, k1)
    else
      let (vs1, ls, k1) := substVals p slot vs k
      (v :: vs1, ls, k1)

/-- Phase-1 use rewriting over one instruction list: the loads for every
use are collected (they are all inserted at the phi block's first
insertion point afterwards). -/
def substInstrList (p slot : String) :
    List CInstr → Nat → (List CInstr × List CInstr × Nat)
  | [], k => ([], [], k)
  | i :: is, k =>
    let (vs, l1, k1) := substVals p slot (instrOps i) k
    let (is1, l2, k2) := substInstrList p slot is k1
    (instrWithOps i vs :: is1, l1 ++ l2, k2)

/-- Phase-1 use rewriting over all blocks: returns the rewritten blocks
paired with the loads to hoist, and the advanced counter. -/
def substBlocks (p slot : String) :
    List BBlock → Nat → (List (BBlock × List CInstr) × Nat)
  | [], k => ([], k)
  | b :: bs, k =>
    let (is, l1, k1) := substInstrList p slot b.instrs k
    let (t, l2, k2) :=
      let (vs, ls, k2) := substVals p slot (termOps b.term) k1
      (termWithOps b.term vs, ls, k2)
    let (rest, k3) := substBlocks p slot bs k2
    (({ b with instrs := is, term := t }, l1 ++ l2) :: rest, k3)

/-- Remove the first phi named `p` from an instruction list. -/
def removeFirstPhi (p : String) : List CInstr → List CInstr
  | [] => []
  | i :: is =>
    match i with
    | .phi n incs => if n = p then is else .phi n incs :: removeFirstPhi p is
    | i => i :: removeFirstPhi p is

/-- Find the first block containing a phi named `p`, and its incoming
list as currently recorded. -/
def findPhi (blocks : List BBlock) (p : String) :
    Option (Nat × List (Val × Nat)) :=
  go blocks 0
where
  go : List BBlock → Nat → Option (Nat × List (Val × Nat))
    | [], _ => none
    | b :: bs, j =>
      match b.instrs.findSome? (fun i =>
        match i with
        | .phi n incs => if n = p then some incs else none
        | _ => none) with
      | some incs => some (j, incs)
      | none => go bs (j + 1)

/-- The demotion working state: the blocks, the advancing insertion
point of the shared entry alloca builder, and a fresh-name counter for
the reload loads. -/
structure DemoteState where
  blocks : List BBlock
  allocaCount : Nat
  fresh : Nat
deriving DecidableEq, Repr

/-- Demote one phi (phase 1 of `demoteValuesToMemory`): entry alloca, an
undef-store in the entry, a store of each incoming value before the
corresponding predecessor's terminator, one load per use hoisted to the
phi block's first insertion point, then erase the phi. -/
def demotePhiOne (st : DemoteState) (p : String) : DemoteState :=
  match findPhi st.blocks p with
  | none => st
  | some (bIdx, incs) =>
    let slot := p ++ ".phialloca"
    let blocks := updateBlock st.blocks 0 fun b =>
      { b with instrs := insertAt st.allocaCount [.alloca slot] b.instrs }
    let blocks := updateBlock blocks 0 fun b =>
      { b with instrs := b.instrs ++ [.store .undef slot] }
    let blocks := incs.foldl
      (fun bl (pr : Val × Nat) => updateBlock bl pr.2 fun b =>
        { b with instrs := b.instrs ++ [.store pr.1 slot] }) blocks
    let sres := substBlocks p slot blocks st.fresh
    let loads := (sres.1.map Prod.snd).flatten
    let blocks := sres.1.map Prod.fst
    let blocks := updateBlock blocks bIdx fun b =>
      { b with instrs := insertAt (leadingPhis b.instrs) loads b.instrs }
    let blocks := updateBlock blocks bIdx fun b =>
      { b with instrs := removeFirstPhi p b.instrs }
    { blocks := blocks, allocaCount := st.allocaCount + 1, fresh := sres.2 }

/-- The name of a phi node (`none` for every other instruction). -/
def phiName : CInstr → Option String
  | .phi n _ => some n
  | _ => none

/-- All phi names, in traversal order (`PhisToRemove`). -/
def collectPhiNames (blocks : List BBlock) : List String :=
  (blocks.map fun b => b.instrs.filterMap phiName).flatten

/-- Whether the value named `nm` defined in block `bIdx` is used by an
instruction (terminators included) of another block. -/
def usedOutside (blocks : List BBlock) (bIdx : Nat) (nm : String) : Bool :=
  (blocks.enum.any fun (pr : Nat × BBlock) =>
    pr.1 ≠ bIdx &&
      ((pr.2.instrs.any fun i => (instrOps i).contains (Val.reg nm)) ||
        (termOps pr.2.term).contains (Val.reg nm)))

/-- The `ToDemote` collection of phase 2: every non-terminator,
non-alloca, non-phi instruction whose value is used outside its block. -/
def collectToDemote (blocks : List BBlock) : List String :=
  (blocks.enum.map fun (pr : Nat × BBlock) =>
    pr.2.instrs.filterMap fun i =>
      match instrName i with
      | some nm =>
        match i with
        | .alloca _ => none
        | .phi _ _ => none
        | _ => if usedOutside blocks pr.1 nm then some nm else none
      | none => none).flatten

/-- Phase-2 use rewriting over one instruction list: each use gets its
own load inserted immediately before the using instruction; stores into
the save slot (the just-created save store) are skipped. -/
def substInstrListBefore (p slot : String) :
    List CInstr → Nat → (List CInstr × Nat)
  | [], k => ([], k)
  | i :: is, k =>
    match i with
    | .store v s =>
      if s = slot then
        let (is1, k1) := substInstrListBefore p slot is k
        (CInstr.store v s :: is1, k1)
      else
        let (vs, ls, k1) := substVals p slot (instrOps (.store v s)) k
        let (is1, k2) := substInstrListBefore p slot is k1
        (ls ++ [instrWithOps (.store v s) vs] ++ is1, k2)
    | i =>
      let (vs, ls, k1) := substVals p slot (instrOps i) k
      let (is1, k2) := substInstrListBefore p slot is k1
      (ls ++ [instrWithOps i vs] ++ is1, k2)

/-- Phase-2 use rewriting over all blocks (loads for terminator uses go
at the end of the block's instruction list, i.e. right before the
terminator). -/
def substBlocksBefore (p slot : String) :
    List BBlock → Nat → (List BBlock × Nat)
  | [], k => ([], k)
  | b :: bs, k =>
    let (is, k1) := substInstrListBefore p slot b.instrs k
    let (vs, ls, k2) := substVals p slot (termOps b.term) k1
    let (rest, k3) := substBlocksBefore p slot bs k2
    ({ b with instrs := is ++ ls, term := termWithOps b.term vs } :: rest, k3)

/-- Locate the first instruction named `nm` (block index, index in the
block). -/
def findInstr (blocks : List BBlock) (nm : String) : Option (Nat × Nat) :=
  go blocks 0
where
  go : List BBlock → Nat → Option (Nat × Nat)
    | [], _ => none
    | b :: bs, j =>
      match b.instrs.findIdx? (fun i => instrName i == some nm) with
      | some idx => some (j, idx)
      | none => go bs (j + 1)

/-- Demote one cross-block value (phase 2 of `demoteValuesToMemory`):
entry alloca, a save store right after the defining instruction, and one
load per use inserted right before each user; the save store itself is
exempted from the rewriting. -/
def demoteInstrOne (st : DemoteState) (nm : String) : DemoteState :=
  let slot := nm ++ ".alloca"
  let blocks := updateBlock st.blocks 0 fun b =>
    { b with instrs := insertAt st.allocaCount [.alloca slot] b.instrs }
  match findInstr blocks nm with
  | none => st
  | some (bIdx, idx) =>
    let blocks := updateBlock blocks bIdx fun b =>
      { b with instrs := insertAt (idx + 1) [.store (.reg nm) slot] b.instrs }
    let sres := substBlocksBefore nm slot blocks st.fresh
    { blocks := sres.1, allocaCount := st.allocaCount + 1, fresh := sres.2 }

/-- `demoteValuesToMemory`: phase 1 erases every phi in favor of a stack
slot; phase 2 spills every remaining cross-block value to a stack slot. -/
def demoteValuesToMemory (F : Fn) : Fn :=
  let st0 : DemoteState := ⟨F.blocks, 0, 0⟩
  let st1 := (collectPhiNames F.blocks).foldl demotePhiOne st0
  let st2 := (collectToDemote st1.blocks).foldl demoteInstrOne st1
  { F with blocks := st2.blocks }

end CFF

end Chakravyuha

namespace Chakravyuha

namespace CFF

/-! ### Flattening (`flattenFunction`) -/

/-- `Builder.getInt32`: a 32-bit constant. -/
def getInt32 (n : Nat) : Nat := n % 2 ^ 32

/-- The `BlockId` map: after enumeration, the non-entry block at index
`i` (for `1 ≤ i < n`, where `n` is the block count at enumeration time)
carries id `i` (`NextId` starts at 1 and the blocks are visited in
order).  Everything else — the entry block, and any index outside the
function — is not in the map. -/
def blockIdOf (n d : Nat) : Option Nat :=
  if 1 ≤ d ∧ d < n then some d else none

/-- The select cascade of `buildNextStateForTerm` for a switch
terminator: starting from the default's id (or `DefaultState = 0` when
the default is unmapped), fold each mapped case into
`select (v == ci), id(Bi), acc`.  Returns `none` when no successor at
all is in the map. -/
def caseFoldStep (n : Nat) (v : Val) (acc : List CInstr × Val)
    (pr : Nat × Nat) : List CInstr × Val :=
  match blockIdOf n pr.2 with
  | some i =>
    let cmpName := "cff.case.cmp." ++ toString acc.1.length
    let selName := "cff.case.select." ++ toString acc.1.length
    (acc.1 ++ [.icmpeq cmpName v pr.1,
               .select selName (.reg cmpName) (.cint (getInt32 i)) acc.2],
     .reg selName)
  | none => acc

def buildNextStateSwitch (n : Nat) (v : Val) (d : Nat)
    (cs : List (Nat × Nat)) : Option (List CInstr × Val) :=
  if (blockIdOf n d).isNone && cs.all (fun pr => (blockIdOf n pr.2).isNone)
  then none
  else
    some (cs.foldl (caseFoldStep n v)
      ([], match blockIdOf n d with
           | some i => Val.cint (getInt32 i)
           | none => Val.cint (getInt32 0)))

/-- The entry-terminator translation of `flattenFunction` (Step C): the
instructions appended before the entry terminator to initialize the
state slot.  `none` means the abort path (`return false`) is taken. -/
def entryInitInstrs (n : Nat) (t : Option Term) : Option (List CInstr) :=
  match t with
  | some (.br d) =>
    (blockIdOf n d).map fun i =>
      [.store (.cint (getInt32 i)) "cff.state"]
  | some (.condbr c td fd) =>
    match blockIdOf n td, blockIdOf n fd with
    | some ti, some fi =>
      some [.select "cff.init" c (.cint (getInt32 ti)) (.cint (getInt32 fi)),
            .store (.reg "cff.init") "cff.state"]
    | _, _ => none
  | some (.switch v d cs) =>
    (buildNextStateSwitch n v d cs).map fun pr =>
      pr.1 ++ [.store pr.2 "cff.state"]
  | _ => none

/-- Step E for one flatten target: rewrite its terminator into
`store next-state; br dispatcher`.  Return and unreachable terminators
are kept; a terminator with an unmapped successor is silently left in
place (the loop carries no abort). -/
def rewriteTargetBlock (n dispatcherIdx : Nat) (b : BBlock) : BBlock :=
  match b.term with
  | some (.ret _) => b
  | some .unreachable => b
  | some (.br d) =>
    match blockIdOf n d with
    | some id' =>
      { b with
        instrs := b.instrs ++ [.store (.cint (getInt32 id')) "cff.state"],
        term := some (.br dispatcherIdx) }
    | none => b
  | some (.condbr c td fd) =>
    match blockIdOf n td, blockIdOf n fd with
    | some ti, some fi =>
      { b with
        instrs := b.instrs ++
          [.select "cff.next" c (.cint (getInt32 ti)) (.cint (getInt32 fi)),
           .store (.reg "cff.next") "cff.state"],
        term := some (.br dispatcherIdx) }
    | _, _ => b
  | some (.switch v d cs) =>
    match buildNextStateSwitch n v d cs with
    | some pr =>
      { b with
        instrs := b.instrs ++ pr.1 ++ [.store pr.2 "cff.state"],
        term := some (.br dispatcherIdx) }
    | none => b
  | _ => b

/-- Step E, one flatten target: the rewrite only reads and replaces the
target block itself. -/
def rewriteTarget (n dispatcherIdx : Nat) (bl : List BBlock) (i : Nat) :
    List BBlock :=
  updateBlock bl i (rewriteTargetBlock n dispatcherIdx)

/-- Successor indices of a block (no terminator: none yet). -/
def succsOf (b : BBlock) : List Nat :=
  match b.term with
  | some t => t.succs
  | none => []

/-- One expansion step of the reachability walk. -/
def reachStep (blocks : List BBlock) (R : List Nat) : List Nat :=
  R ++ ((R.map fun i => succsOf (blocks.getD i default)).flatten.filter
    fun s => !(R.contains s))

/-- The set of blocks reachable from the entry (enough expansion steps
to saturate). -/
def reachSet (blocks : List BBlock) : List Nat :=
  (List.range blocks.length).foldl (fun R _ => reachStep blocks R) [0]

/-- `removeUnreachableBlocks` from the host utilities: drop every block
not reachable from the entry. -/
def removeUnreachableBlocks (blocks : List BBlock) : List BBlock :=
  (blocks.enum.filter fun pr => (reachSet blocks).contains pr.1).map Prod.snd

/-- Steps B-D, first half: the state slot is inserted at the entry's
first insertion point, and the dispatcher (index `n`, still without a
terminator) and default (index `n + 1`) blocks are created. -/
def flattenPrepared (Fd : Fn) : List BBlock :=
  (updateBlock Fd.blocks 0 fun b =>
    { b with instrs :=
        (insertAt (leadingPhis b.instrs) [.alloca "cff.state"] b.instrs) })
  ++ [⟨false, [], none⟩, ⟨false, [], some .unreachable⟩]

/-- The success path after the entry translation produced `inits`: the
entry gets the init stores and branches to the dispatcher; the
dispatcher loads the state and switches on it, one case per flatten
target, defaulting to the unreachable block; then every flatten
target's terminator is rewritten (Step E). -/
def flattenBody (Fd : Fn) (inits : List CInstr) : List BBlock :=
  let n := Fd.blocks.length
  let blocks3 := updateBlock (flattenPrepared Fd) 0 fun b =>
    { b with instrs := b.instrs ++ inits, term := some (.br n) }
  let cases := (List.range (n - 1)).map fun j => (getInt32 (j + 1), j + 1)
  let blocks4 := updateBlock blocks3 n fun b =>
    { b with instrs := [.load "cff.cur" "cff.state"],
             term := some (.switch (.reg "cff.cur") (n + 1) cases) }
  (List.range (n - 1)).foldl
    (fun bl j => rewriteTarget n n bl (j + 1)) blocks4

/-- `ControlFlowFlatteningPass::flattenFunction`.  Returns the success
flag and the function as left behind (the C++ mutates `F` in place, so
on the abort path the partial mutations stay). -/
def flattenFunction (F0 : Fn) : Bool × Fn :=
  if F0.isDecl || F0.isIntrinsic || F0.blocks.length < 2 then (false, F0)
  else if hasUnsupportedControlFlow F0 || shouldSkipFunction F0 then (false, F0)
  else
    let Fd := demoteValuesToMemory F0
    let n := Fd.blocks.length
    if n < 2 then (false, Fd)
    else
      match entryInitInstrs n ((flattenPrepared Fd).getD 0 default).term with
      | none => (false, { Fd with blocks := flattenPrepared Fd })
      | some inits =>
        (true, { Fd with blocks :=
          removeUnreachableBlocks (flattenBody Fd inits) })

/-- The per-module loop of `ControlFlowFlatteningPass::run`, reduced to
its counter bookkeeping: oracle-skipped functions increment the skipped
counter; `flattenFunction` is called on the rest, and a `false` return
from it increments nothing. -/
structure CffRunStats where
  flattenedFunctions : Nat
  flattenedBlocks : Nat
  skippedFunctions : Nat
  fns : List Fn
deriving DecidableEq, Repr

def cffRun (fns : List Fn) : CffRunStats :=
  fns.foldl
    (fun st F =>
      if F.isDecl || F.isIntrinsic then { st with fns := st.fns ++ [F] }
      else if F.blocks.length < 2 then { st with fns := st.fns ++ [F] }
      else if shouldSkipFunction F || hasUnsupportedControlFlow F then
        { st with skippedFunctions := st.skippedFunctions + 1,
                  fns := st.fns ++ [F] }
      else
        let blocksBefore := F.blocks.length
        let r := flattenFunction F
        if r.1 then
          { st with flattenedFunctions := st.flattenedFunctions + 1,
                    flattenedBlocks := st.flattenedBlocks + (blocksBefore - 1),
                    fns := st.fns ++ [r.2] }
        else { st with fns := st.fns ++ [r.2] })
    ⟨0, 0, 0, []⟩

end CFF

end Chakravyuha

namespace Chakravyuha

namespace CFF

/-- The function `{ entry: ret; dead: ret }`: two blocks, the entry
returns, the second block is unreachable.  This is verifier-legal LLVM
IR, it passes every oracle check (two blocks, only supported
terminators), and it drives `flattenFunction` into its abort path: the
entry terminator is a `ret`, so no initial state can be computed. -/
def c4Fn : Fn :=
  ⟨false, false,
   [⟨false, [], some (.ret none)⟩, ⟨false, [], some (.ret none)⟩]⟩

/-- **C4, refuted.** When `flattenFunction` aborts mid-transform, the
function is *not* left untouched: the state alloca has already been
inserted into the entry block and the dispatcher block (still without a
terminator) and the default block have already been created; and the
aborted function is *not* counted in the skipped-functions counter
(`run` only counts oracle skips; a `false` return from
`flattenFunction` increments nothing). -/
theorem c4_abort_leaves_partial_changes :
    (flattenFunction c4Fn).1 = false
    ∧ (flattenFunction c4Fn).2 ≠ c4Fn
    ∧ (flattenFunction c4Fn).2.blocks
        = [⟨false, [.alloca "cff.state"], some (.ret none)⟩,
           ⟨false, [], some (.ret none)⟩,
           ⟨false, [], none⟩,
           ⟨false, [], some .unreachable⟩]
    ∧ (cffRun [c4Fn]).skippedFunctions = 0
    ∧ (cffRun [c4Fn]).fns = [(flattenFunction c4Fn).2] := by
  refine ⟨by decide, by decide, by decide, by decide, by decide⟩

end CFF

end Chakravyuha

namespace Chakravyuha

namespace CFF

/-! ### Structural lemmas about the demotion and flattening pipeline -/

/-- A terminator with its operand values blanked: what demotion
preserves about a block's terminator (kind, successors, case values). -/
def termShape : Option Term → Option Term
  | some (.condbr _ t f) => some (.condbr .undef t f)
  | some (.switch _ d cs) => some (.switch .undef d cs)
  | some (.ret _) => some (.ret none)
  | t => t

/-- The part of a block demotion cannot change: EH-pad flag, terminator
shape, and the list of its phi names. -/
def blockSig (b : BBlock) : Bool × Option Term × List String :=
  (b.isEHPad, termShape b.term, b.instrs.filterMap phiName)

theorem termShape_termWithOps (t : Option Term) (vs : List Val) :
    termShape (termWithOps t vs) = termShape t := by
  match t with
  | none => rfl
  | some (.br _) => rfl
  | some (.condbr _ _ _) => rfl
  | some (.switch _ _ _) => rfl
  | some (.ret none) => rfl
  | some (.ret (some _)) => rfl
  | some .unreachable => rfl
  | some .unsupportedTerm => rfl

theorem phiName_instrWithOps (i : CInstr) (vs : List Val) :
    phiName (instrWithOps i vs) = phiName i := by
  cases i <;> rfl

theorem updateBlock_length (bl : List BBlock) (i : Nat) (f : BBlock → BBlock) :
    (updateBlock bl i f).length = bl.length := by
  induction bl generalizing i with
  | nil => rfl
  | cons b bs ih =>
    cases i with
    | zero => rfl
    | succ i => simpa [updateBlock] using ih i

theorem updateBlock_getD_ne (bl : List BBlock) (i j : Nat)
    (f : BBlock → BBlock) (h : j ≠ i) :
    (updateBlock bl i f).getD j default = bl.getD j default := by
  induction bl generalizing i j with
  | nil => rfl
  | cons b bs ih =>
    cases i with
    | zero =>
      cases j with
      | zero => exact absurd rfl h
      | succ j => rfl
    | succ i =>
      cases j with
      | zero => rfl
      | succ j =>
        simpa [updateBlock, List.getD_cons_succ] using ih i j (fun he => h (by omega))

theorem updateBlock_getD_eq (bl : List BBlock) (i : Nat)
    (f : BBlock → BBlock) (h : i < bl.length) :
    (updateBlock bl i f).getD i default = f (bl.getD i default) := by
  induction bl generalizing i with
  | nil => simp at h
  | cons b bs ih =>
    cases i with
    | zero => rfl
    | succ i =>
      simpa [updateBlock, List.getD_cons_succ] using
        ih i (by simpa using h)

theorem updateBlock_map_of_sig (bl : List BBlock) (i : Nat)
    (f : BBlock → BBlock) {γ : Type} (g : BBlock → γ)
    (hf : ∀ b, g (f b) = g b) :
    (updateBlock bl i f).map g = bl.map g := by
  induction bl generalizing i with
  | nil => rfl
  | cons b bs ih =>
    cases i with
    | zero => simp [updateBlock, hf]
    | succ i => simp [updateBlock, ih]

theorem insertAt_filterMap_phiName (k : Nat) (xs l : List CInstr)
    (hx : ∀ x ∈ xs, phiName x = none) :
    (insertAt k xs l).filterMap phiName = l.filterMap phiName := by
  have hxs : xs.filterMap phiName = [] := List.filterMap_eq_nil.mpr hx
  calc (l.take k ++ xs ++ l.drop k).filterMap phiName
      = (l.take k).filterMap phiName ++ xs.filterMap phiName
          ++ (l.drop k).filterMap phiName := by
        simp [List.filterMap_append]
    _ = (l.take k).filterMap phiName ++ (l.drop k).filterMap phiName := by
        rw [hxs]; simp
    _ = l.filterMap phiName := by
        rw [← List.filterMap_append, List.take_append_drop]

theorem insertAt_sig (k : Nat) (xs : List CInstr)
    (hx : ∀ x ∈ xs, phiName x = none) (b : BBlock) :
    blockSig { b with instrs := insertAt k xs b.instrs } = blockSig b := by
  simp [blockSig, insertAt_filterMap_phiName k xs b.instrs hx]

theorem append_sig (xs : List CInstr) (hx : ∀ x ∈ xs, phiName x = none)
    (b : BBlock) :
    blockSig { b with instrs := b.instrs ++ xs } = blockSig b := by
  have hxs : xs.filterMap phiName = [] := List.filterMap_eq_nil.mpr hx
  simp [blockSig, List.filterMap_append, hxs]

theorem substVals_loads (p slot : String) (vs : List Val) (k : Nat) :
    ∀ x ∈ (substVals p slot vs k).2.1, phiName x = none := by
  induction vs generalizing k with
  | nil => intro x hx; cases hx
  | cons v vs ih =>
    intro x hx
    by_cases hv : v = Val.reg p
    · simp only [substVals, if_pos hv] at hx
      rcases List.mem_cons.mp hx with rfl | hx
      · rfl
      · exact ih _ x hx
    · simp only [substVals, if_neg hv] at hx
      exact ih _ x hx

theorem substInstrList_filterMap (p slot : String) (l : List CInstr)
    (k : Nat) :
    (substInstrList p slot l k).1.filterMap phiName = l.filterMap phiName := by
  induction l generalizing k with
  | nil => rfl
  | cons i is ih =>
    simp only [substInstrList, List.filterMap_cons]
    rw [phiName_instrWithOps]
    cases h : phiName i with
    | none => exact ih _
    | some n => rw [ih _]

theorem substInstrList_loads (p slot : String) (l : List CInstr) (k : Nat) :
    ∀ x ∈ (substInstrList p slot l k).2.1, phiName x = none := by
  induction l generalizing k with
  | nil => intro x hx; cases hx
  | cons i is ih =>
    intro x hx
    simp only [substInstrList] at hx
    rcases List.mem_append.mp hx with hx | hx
    · exact substVals_loads p slot (instrOps i) k x hx
    · exact ih _ x hx

theorem substBlocks_sig (p slot : String) (bl : List BBlock) (k : Nat) :
    ((substBlocks p slot bl k).1.map Prod.fst).map blockSig
      = bl.map blockSig := by
  induction bl generalizing k with
  | nil => rfl
  | cons b bs ih =>
    simp only [substBlocks, List.map_cons]
    rw [ih]
    congr 1
    simp [blockSig, termShape_termWithOps, substInstrList_filterMap]

theorem substBlocks_loads (p slot : String) (bl : List BBlock) (k : Nat) :
    ∀ pr ∈ (substBlocks p slot bl k).1, ∀ x ∈ pr.2, phiName x = none := by
  induction bl generalizing k with
  | nil => intro pr hpr; cases hpr
  | cons b bs ih =>
    intro pr hpr x hx
    simp only [substBlocks] at hpr
    rcases List.mem_cons.mp hpr with rfl | hpr
    · simp only at hx
      rcases List.mem_append.mp hx with hx | hx
      · exact substInstrList_loads p slot b.instrs k x hx
      · exact substVals_loads p slot (termOps b.term) _ x hx
    · exact ih _ pr hpr x hx

theorem substInstrListBefore_filterMap (p slot : String) (l : List CInstr)
    (k : Nat) :
    (substInstrListBefore p slot l k).1.filterMap phiName
      = l.filterMap phiName := by
  induction l generalizing k with
  | nil => rfl
  | cons i is ih =>
    match i with
    | .store v s =>
      by_cases hs : s = slot
      · simp only [substInstrListBefore, if_pos hs, List.filterMap_cons]
        exact ih _
      · simp only [substInstrListBefore, if_neg hs, List.filterMap_append]
        rw [List.filterMap_eq_nil_iff.mpr
          (substVals_loads p slot (instrOps (.store v s)) k)]
        simp only [List.nil_append, List.filterMap_cons]
        rw [phiName_instrWithOps]
        simp only [phiName, List.filterMap_cons]
        exact ih _
    | .phi n incs =>
      simp only [substInstrListBefore, List.filterMap_append]
      rw [List.filterMap_eq_nil_iff.mpr
        (substVals_loads p slot (instrOps (.phi n incs)) k)]
      simp only [List.nil_append, List.filterMap_cons]
      rw [phiName_instrWithOps]
      simp only [phiName]
      rw [ih _]
      simp
    | .alloca n =>
      simp only [substInstrListBefore, List.filterMap_append]
      rw [List.filterMap_eq_nil_iff.mpr
        (substVals_loads p slot (instrOps (.alloca n)) k)]
      simp only [List.nil_append, List.filterMap_cons]
      rw [phiName_instrWithOps]
      simp only [phiName]
      rw [ih _]
      simp
    | .load n s =>
      simp only [substInstrListBefore, List.filterMap_append]
      rw [List.filterMap_eq_nil_iff.mpr
        (substVals_loads p slot (instrOps (.load n s)) k)]
      simp only [List.nil_append, List.filterMap_cons]
      rw [phiName_instrWithOps]
      simp only [phiName]
      rw [ih _]
      simp
    | .select n c t f =>
      simp only [substInstrListBefore, List.filterMap_append]
      rw [List.filterMap_eq_nil_iff.mpr
        (substVals_loads p slot (instrOps (.select n c t f)) k)]
      simp only [List.nil_append, List.filterMap_cons]
      rw [phiName_instrWithOps]
      simp only [phiName]
      rw [ih _]
      simp
    | .icmpeq n v c =>
      simp only [substInstrListBefore, List.filterMap_append]
      rw [List.filterMap_eq_nil_iff.mpr
        (substVals_loads p slot (instrOps (.icmpeq n v c)) k)]
      simp only [List.nil_append, List.filterMap_cons]
      rw [phiName_instrWithOps]
      simp only [phiName]
      rw [ih _]
      simp
    | .callInstr n f args =>
      simp only [substInstrListBefore, List.filterMap_append]
      rw [List.filterMap_eq_nil_iff.mpr
        (substVals_loads p slot (instrOps (.callInstr n f args)) k)]
      simp only [List.nil_append, List.filterMap_cons]
      rw [phiName_instrWithOps]
      simp only [phiName]
      rw [ih _]
      simp
    | .asmCallInstr n args =>
      simp only [substInstrListBefore, List.filterMap_append]
      rw [List.filterMap_eq_nil_iff.mpr
        (substVals_loads p slot (instrOps (.asmCallInstr n args)) k)]
      simp only [List.nil_append, List.filterMap_cons]
      rw [phiName_instrWithOps]
      simp only [phiName]
      rw [ih _]
      simp
    | .other n ops =>
      simp only [substInstrListBefore, List.filterMap_append]
      rw [List.filterMap_eq_nil_iff.mpr
        (substVals_loads p slot (instrOps (.other n ops)) k)]
      simp only [List.nil_append, List.filterMap_cons]
      rw [phiName_instrWithOps]
      simp only [phiName]
      rw [ih _]
      simp

theorem substBlocksBefore_sig (p slot : String) (bl : List BBlock) (k : Nat) :
    (substBlocksBefore p slot bl k).1.map blockSig = bl.map blockSig := by
  induction bl generalizing k with
  | nil => rfl
  | cons b bs ih =>
    simp only [substBlocksBefore, List.map_cons]
    rw [ih]
    congr 1
    simp only [blockSig, termShape_termWithOps, List.filterMap_append]
    rw [substInstrListBefore_filterMap,
      List.filterMap_eq_nil_iff.mpr (substVals_loads p slot (termOps b.term) _)]
    simp

/-- Per-block phi names. -/
def perNames (b : BBlock) : List String := b.instrs.filterMap phiName

/-- EH-pad flag and terminator shape only. -/
def sig2 (b : BBlock) : Bool × Option Term := (b.isEHPad, termShape b.term)

theorem collectPhiNames_eq (bl : List BBlock) :
    collectPhiNames bl = (bl.map perNames).flatten := rfl

theorem map_of_blockSig_map {bl1 bl2 : List BBlock}
    (h : bl1.map blockSig = bl2.map blockSig) {γ : Type}
    (g : Bool × Option Term × List String → γ) :
    bl1.map (fun b => g (blockSig b)) = bl2.map (fun b => g (blockSig b)) := by
  have h1 : (bl1.map blockSig).map g = (bl2.map blockSig).map g := by rw [h]
  simpa [List.map_map, Function.comp] using h1

theorem perNames_map_of_blockSig {bl1 bl2 : List BBlock}
    (h : bl1.map blockSig = bl2.map blockSig) :
    bl1.map perNames = bl2.map perNames := by
  have := map_of_blockSig_map h (fun pr => pr.2.2)
  simpa [blockSig, perNames] using this

theorem sig2_map_of_blockSig {bl1 bl2 : List BBlock}
    (h : bl1.map blockSig = bl2.map blockSig) :
    bl1.map sig2 = bl2.map sig2 := by
  have := map_of_blockSig_map h (fun pr => (pr.1, pr.2.1))
  simpa [blockSig, sig2] using this

theorem collect_of_perNames {bl1 bl2 : List BBlock}
    (h : bl1.map perNames = bl2.map perNames) :
    collectPhiNames bl1 = collectPhiNames bl2 := by
  rw [collectPhiNames_eq, collectPhiNames_eq, h]

/-- `removeFirstPhi` erases exactly the first occurrence of `p` among
the phi names of an instruction list. -/
theorem removeFirstPhi_filterMap (p : String) (l : List CInstr) :
    (removeFirstPhi p l).filterMap phiName = (l.filterMap phiName).erase p := by
  induction l with
  | nil => rfl
  | cons i is ih =>
    match i with
    | .phi n incs =>
      by_cases hn : n = p
      · subst hn
        simp [removeFirstPhi, phiName, List.filterMap_cons, List.erase_cons]
      · simp only [removeFirstPhi, if_neg hn, List.filterMap_cons, phiName]
        rw [List.erase_cons]
        simp only [beq_iff_eq, if_neg hn]
        rw [ih]
    | .alloca n => simpa [removeFirstPhi, List.filterMap_cons, phiName] using ih
    | .load n s => simpa [removeFirstPhi, List.filterMap_cons, phiName] using ih
    | .store v s => simpa [removeFirstPhi, List.filterMap_cons, phiName] using ih
    | .select n c t f =>
      simpa [removeFirstPhi, List.filterMap_cons, phiName] using ih
    | .icmpeq n v c =>
      simpa [removeFirstPhi, List.filterMap_cons, phiName] using ih
    | .callInstr n f args =>
      simpa [removeFirstPhi, List.filterMap_cons, phiName] using ih
    | .asmCallInstr n args =>
      simpa [removeFirstPhi, List.filterMap_cons, phiName] using ih
    | .other n ops =>
      simpa [removeFirstPhi, List.filterMap_cons, phiName] using ih

/-- Erasing one phi named `p` in block `i` erases one `p` from the
module-wide phi-name multiset. -/
theorem updateBlock_remove_phis (bl : List BBlock) (i : Nat) (p : String)
    (hlt : i < bl.length) (hmem : p ∈ perNames (bl.getD i default)) :
    (↑(collectPhiNames (updateBlock bl i fun b =>
        { b with instrs := removeFirstPhi p b.instrs })) : Multiset String)
      = (↑(collectPhiNames bl) : Multiset String).erase p := by
  induction bl generalizing i with
  | nil => simp at hlt
  | cons b bs ih =>
    cases i with
    | zero =>
      simp only [updateBlock, collectPhiNames_eq, List.map_cons, List.flatten_cons]
      have hb : p ∈ perNames b := by simpa using hmem
      rw [show perNames { b with instrs := removeFirstPhi p b.instrs }
          = (perNames b).erase p from removeFirstPhi_filterMap p b.instrs]
      rw [← Multiset.coe_add, ← Multiset.coe_add]
      rw [Multiset.erase_add_left_pos _ hb]
      rw [Multiset.coe_erase]
    | succ i =>
      simp only [updateBlock, collectPhiNames_eq, List.map_cons,
        List.flatten_cons]
      have hlt2 : i < bs.length := by simpa using hlt
      have hmem2 : p ∈ perNames (bs.getD i default) := by
        simpa [List.getD_cons_succ] using hmem
      have := ih i hlt2 hmem2
      rw [← Multiset.coe_add, ← Multiset.coe_add]
      rw [collectPhiNames_eq, collectPhiNames_eq] at this
      rw [this]
      have hbmem : p ∈ (↑((bs.map perNames).flatten) : Multiset String) := by
        have : p ∈ (bs.map perNames).flatten := by
          refine List.mem_flatten.mpr ⟨perNames (bs.getD i default), ?_, hmem2⟩
          rw [List.getD_eq_getElem _ _ hlt2]
          exact List.mem_map.mpr ⟨_, List.getElem_mem _, rfl⟩
        simpa using this
      rw [Multiset.erase_add_right_pos _ hbmem]

theorem findSomePhi_isSome (p : String) (l : List CInstr) :
    (l.findSome? fun i =>
      match i with
      | CInstr.phi n incs => if n = p then some incs else none
      | _ => none).isSome ↔ p ∈ l.filterMap phiName := by
  induction l with
  | nil => simp
  | cons i is ih =>
    match i with
    | .phi n incs =>
      by_cases hn : n = p
      · subst hn
        simp [List.findSome?_cons, phiName]
      · simp [List.findSome?_cons, phiName, hn, ih, Ne.symm hn]
    | .alloca n => simpa [List.findSome?_cons, phiName] using ih
    | .load n s => simpa [List.findSome?_cons, phiName] using ih
    | .store v s => simpa [List.findSome?_cons, phiName] using ih
    | .select n c t f => simpa [List.findSome?_cons, phiName] using ih
    | .icmpeq n v c => simpa [List.findSome?_cons, phiName] using ih
    | .callInstr n f args => simpa [List.findSome?_cons, phiName] using ih
    | .asmCallInstr n args => simpa [List.findSome?_cons, phiName] using ih
    | .other n ops => simpa [List.findSome?_cons, phiName] using ih

theorem findPhi_go_facts (p : String) :
    ∀ (bs : List BBlock) (j bIdx : Nat) (incs : List (Val × Nat)),
      findPhi.go p bs j = some (bIdx, incs) →
      ∃ k, k < bs.length ∧ bIdx = j + k ∧ p ∈ perNames (bs.getD k default) := by
  intro bs
  induction bs with
  | nil => intro j bIdx incs h; cases h
  | cons b rest ih =>
    intro j bIdx incs h
    rw [findPhi.go] at h
    cases hf : b.instrs.findSome? fun i =>
        match i with
        | CInstr.phi n incs => if n = p then some incs else none
        | _ => none with
    | some incs2 =>
      rw [hf] at h
      simp only [Option.some.injEq, Prod.mk.injEq] at h
      obtain ⟨h1, h2⟩ := h
      refine ⟨0, by simp, by omega, ?_⟩
      have : p ∈ b.instrs.filterMap phiName :=
        (findSomePhi_isSome p b.instrs).mp (by rw [hf]; rfl)
      simpa [perNames] using this
    | none =>
      rw [hf] at h
      obtain ⟨k, hk, hb, hm⟩ := ih (j + 1) bIdx incs h
      exact ⟨k + 1, by simpa using hk, by omega,
        by simpa [List.getD_cons_succ] using hm⟩

theorem findPhi_go_isSome (p : String) :
    ∀ (bs : List BBlock) (j : Nat), p ∈ (bs.map perNames).flatten →
      (findPhi.go p bs j).isSome := by
  intro bs
  induction bs with
  | nil => intro j h; simp at h
  | cons b rest ih =>
    intro j h
    rw [findPhi.go]
    cases hf : b.instrs.findSome? fun i =>
        match i with
        | CInstr.phi n incs => if n = p then some incs else none
        | _ => none with
    | some incs2 => rfl
    | none =>
      have hnot : p ∉ perNames b := by
        intro hmem
        have := (findSomePhi_isSome p b.instrs).mpr (by simpa [perNames] using hmem)
        rw [hf] at this
        cases this
      apply ih (j + 1)
      simp only [List.map_cons, List.flatten_cons, List.mem_append] at h
      rcases h with h | h
      · exact absurd h hnot
      · exact h

theorem findPhi_some_facts (bl : List BBlock) (p : String) (bIdx : Nat)
    (incs : List (Val × Nat)) (h : findPhi bl p = some (bIdx, incs)) :
    bIdx < bl.length ∧ p ∈ perNames (bl.getD bIdx default) := by
  obtain ⟨k, hk, hb, hm⟩ := findPhi_go_facts p bl 0 bIdx incs h
  exact ⟨by omega, by rwa [show bIdx = k by omega]⟩

theorem findPhi_isSome_of_mem (bl : List BBlock) (p : String)
    (h : p ∈ collectPhiNames bl) : (findPhi bl p).isSome :=
  findPhi_go_isSome p bl 0 (by rwa [collectPhiNames_eq] at h)

theorem foldl_append_sig (slot : String) (incs : List (Val × Nat)) :
    ∀ bl : List BBlock,
      ((incs.foldl (fun bl (pr : Val × Nat) => updateBlock bl pr.2 fun b =>
        { b with instrs := b.instrs ++ [.store pr.1 slot] }) bl).map blockSig)
      = bl.map blockSig := by
  induction incs with
  | nil => intro bl; rfl
  | cons pr incs ih =>
    intro bl
    rw [List.foldl_cons, ih]
    exact updateBlock_map_of_sig bl pr.2 _ blockSig
      (fun b => append_sig [.store pr.1 slot] (by intro x hx; simp at hx; subst hx; rfl) b)

/-- The intermediate state of `demotePhiOne` just before the phi is
erased: alloca, undef store, incoming stores, hoisted reload loads. -/
def demoteMid (st : DemoteState) (p : String) (bIdx : Nat)
    (incs : List (Val × Nat)) : List BBlock :=
  let slot := p ++ ".phialloca"
  let blocks := updateBlock st.blocks 0 fun b =>
    { b with instrs := (insertAt st.allocaCount [.alloca slot] b.instrs) }
  let blocks := updateBlock blocks 0 fun b =>
    { b with instrs := b.instrs ++ [.store .undef slot] }
  let blocks := incs.foldl
    (fun bl (pr : Val × Nat) => updateBlock bl pr.2 fun b =>
      { b with instrs := b.instrs ++ [.store pr.1 slot] }) blocks
  let sres := substBlocks p slot blocks st.fresh
  let loads := (sres.1.map Prod.snd).flatten
  let blocks := sres.1.map Prod.fst
  updateBlock blocks bIdx fun b =>
    { b with instrs := insertAt (leadingPhis b.instrs) loads b.instrs }

/-- When the phi is found, `demotePhiOne` is the phi removal applied to
the intermediate state. -/
theorem demotePhiOne_blocks_eq (st : DemoteState) (p : String) (bIdx : Nat)
    (incs : List (Val × Nat)) (hx : findPhi st.blocks p = some (bIdx, incs)) :
    (demotePhiOne st p).blocks
      = updateBlock (demoteMid st p bIdx incs) bIdx
          (fun b => { b with instrs := removeFirstPhi p b.instrs }) := by
  rw [demotePhiOne, hx]
  rfl

/-- The pre-removal stages preserve the block signature. -/
theorem demoteMid_sig (st : DemoteState) (p : String) (bIdx : Nat)
    (incs : List (Val × Nat)) :
    (demoteMid st p bIdx incs).map blockSig = st.blocks.map blockSig := by
  simp only [demoteMid]
  rw [updateBlock_map_of_sig]
  · rw [substBlocks_sig, foldl_append_sig, updateBlock_map_of_sig,
      updateBlock_map_of_sig]
    · intro b
      exact insertAt_sig _ _ (by intro x hx2; simp at hx2; subst hx2; rfl) b
    · intro b
      exact append_sig _ (by intro x hx2; simp at hx2; subst hx2; rfl) b
  · intro b
    apply insertAt_sig
    intro x hx2
    rcases List.mem_flatten.mp hx2 with ⟨l, hl, hxl⟩
    rcases List.mem_map.mp hl with ⟨pr, hpr, rfl⟩
    exact substBlocks_loads _ _ _ _ pr hpr x hxl

theorem demotePhiOne_phis (st : DemoteState) (p : String)
    (hp : p ∈ collectPhiNames st.blocks) :
    (↑(collectPhiNames (demotePhiOne st p).blocks) : Multiset String)
      = (↑(collectPhiNames st.blocks) : Multiset String).erase p := by
  obtain ⟨x, hx⟩ := Option.isSome_iff_exists.mp (findPhi_isSome_of_mem _ _ hp)
  obtain ⟨bIdx, incs⟩ := x
  have heq := demotePhiOne_blocks_eq st p bIdx incs hx
  have hsig := demoteMid_sig st p bIdx incs
  set blE := demoteMid st p bIdx incs with hblE
  obtain ⟨hlt, hmem⟩ := findPhi_some_facts st.blocks p bIdx incs hx
  have hlen : blE.length = st.blocks.length := by
    have := congrArg List.length hsig
    simpa using this
  have hper : blE.map perNames = st.blocks.map perNames :=
    perNames_map_of_blockSig hsig
  have hmem2 : p ∈ perNames (blE.getD bIdx default) := by
    have h1 : perNames (blE.getD bIdx default)
        = perNames (st.blocks.getD bIdx default) := by
      have h2 := congrArg (fun L => L.getD bIdx ([] : List String)) hper
      simp only [] at h2
      rw [List.getD_eq_getElem _ _ (by simpa [hlen] using hlt),
        List.getD_eq_getElem _ _ (by simpa using hlt),
        List.getElem_map, List.getElem_map] at h2
      rw [List.getD_eq_getElem _ _ (by omega), List.getD_eq_getElem _ _ hlt]
      exact h2
    rw [h1]
    exact hmem
  rw [heq, updateBlock_remove_phis blE bIdx p (by omega) hmem2]
  rw [collect_of_perNames hper]

theorem demotePhiOne_sig2 (st : DemoteState) (p : String) :
    (demotePhiOne st p).blocks.map sig2 = st.blocks.map sig2 := by
  cases hx : findPhi st.blocks p with
  | none => rw [demotePhiOne, hx]
  | some x =>
    obtain ⟨bIdx, incs⟩ := x
    have heq := demotePhiOne_blocks_eq st p bIdx incs hx
    have hsig := demoteMid_sig st p bIdx incs
    set blE := demoteMid st p bIdx incs with hblE
    rw [heq]
    have h1 : (updateBlock blE bIdx fun b =>
        { b with instrs := removeFirstPhi p b.instrs }).map sig2
        = blE.map sig2 :=
      updateBlock_map_of_sig _ _ _ sig2 fun b => rfl
    rw [h1, sig2_map_of_blockSig hsig]

theorem phase1_noPhi : ∀ (names : List String) (st : DemoteState),
    (↑(collectPhiNames st.blocks) : Multiset String) = ↑names →
    collectPhiNames ((names.foldl demotePhiOne st).blocks) = [] := by
  intro names
  induction names with
  | nil =>
    intro st h
    simpa using (Multiset.coe_eq_zero _).mp (by simpa using h)
  | cons p rest ih =>
    intro st h
    rw [List.foldl_cons]
    apply ih
    have hp : p ∈ collectPhiNames st.blocks := by
      have : p ∈ (↑(collectPhiNames st.blocks) : Multiset String) := by
        rw [h]; simp
      simpa using this
    rw [demotePhiOne_phis st p hp, h]
    simp

theorem phase1_sig2 : ∀ (names : List String) (st : DemoteState),
    ((names.foldl demotePhiOne st).blocks).map sig2 = st.blocks.map sig2 := by
  intro names
  induction names with
  | nil => intro st; rfl
  | cons p rest ih =>
    intro st
    rw [List.foldl_cons, ih, demotePhiOne_sig2]

theorem demoteInstrOne_blockSig (st : DemoteState) (nm : String) :
    (demoteInstrOne st nm).blocks.map blockSig = st.blocks.map blockSig := by
  simp only [demoteInstrOne]
  cases hfi : findInstr (updateBlock st.blocks 0 fun b =>
      { b with instrs := (insertAt st.allocaCount [CInstr.alloca (nm ++ ".alloca")] b.instrs) }) nm with
  | none => rfl
  | some pr =>
    obtain ⟨bIdx, idx⟩ := pr
    simp only
    rw [substBlocksBefore_sig]
    rw [updateBlock_map_of_sig _ _ _ blockSig (fun b =>
      insertAt_sig _ _ (by intro x hx2; simp at hx2; subst hx2; rfl) b)]
    rw [updateBlock_map_of_sig _ _ _ blockSig (fun b =>
      insertAt_sig _ _ (by intro x hx2; simp at hx2; subst hx2; rfl) b)]

theorem phase2_blockSig : ∀ (names : List String) (st : DemoteState),
    ((names.foldl demoteInstrOne st).blocks).map blockSig
      = st.blocks.map blockSig := by
  intro names
  induction names with
  | nil => intro st; rfl
  | cons nm rest ih =>
    intro st
    rw [List.foldl_cons, ih, demoteInstrOne_blockSig]

/-- After `demoteValuesToMemory`, no phi node remains. -/
theorem demote_noPhi (F : Fn) :
    collectPhiNames (demoteValuesToMemory F).blocks = [] := by
  simp only [demoteValuesToMemory]
  rw [collect_of_perNames (perNames_map_of_blockSig (phase2_blockSig _ _))]
  exact phase1_noPhi (collectPhiNames F.blocks) ⟨F.blocks, 0, 0⟩ rfl

/-- Demotion preserves EH flags and terminator shapes. -/
theorem demote_sig2 (F : Fn) :
    (demoteValuesToMemory F).blocks.map sig2 = F.blocks.map sig2 := by
  simp only [demoteValuesToMemory]
  rw [sig2_map_of_blockSig (phase2_blockSig _ _), phase1_sig2]

theorem demote_length (F : Fn) :
    (demoteValuesToMemory F).blocks.length = F.blocks.length := by
  have := congrArg List.length (demote_sig2 F)
  simpa using this

theorem sig2_getD_of_map_eq {bl1 bl2 : List BBlock}
    (h : bl1.map sig2 = bl2.map sig2) (i : Nat) (hi : i < bl2.length) :
    sig2 (bl1.getD i default) = sig2 (bl2.getD i default) := by
  have hlen : bl1.length = bl2.length := by
    have := congrArg List.length h
    simpa using this
  have h2 := congrArg (fun L => L.getD i (sig2 default)) h
  simp only [] at h2
  rw [List.getD_eq_getElem _ _ (by simpa [hlen] using hi),
    List.getD_eq_getElem _ _ (by simpa using hi),
    List.getElem_map, List.getElem_map] at h2
  rw [List.getD_eq_getElem _ _ (by omega), List.getD_eq_getElem _ _ hi]
  exact h2

/-! ### Shape of the flattened function -/

/-- Terminators with at least one successor (the entry terminators the
pass can translate). -/
def hasSuccTerm : Option Term → Bool
  | some (.br _) => true
  | some (.condbr _ _ _) => true
  | some (.switch _ _ _) => true
  | _ => false

/-- Successors of an optional terminator. -/
def termSuccs : Option Term → List Nat
  | some t => t.succs
  | none => []

theorem succsOf_eq (b : BBlock) : succsOf b = termSuccs b.term := by
  obtain ⟨eh, ins, tm⟩ := b
  cases tm <;> rfl

theorem fold_rewrite_length (n disp : Nat) (js : List Nat) :
    ∀ bl : List BBlock,
      (js.foldl (fun bl j => rewriteTarget n disp bl j) bl).length
        = bl.length := by
  induction js with
  | nil => intro bl; rfl
  | cons j js ih =>
    intro bl
    rw [List.foldl_cons, ih, rewriteTarget, updateBlock_length]

theorem fold_rewrite_getD_notin (n disp : Nat) (js : List Nat) :
    ∀ (bl : List BBlock) (i : Nat), i ∉ js →
      (js.foldl (fun bl j => rewriteTarget n disp bl j) bl).getD i default
        = bl.getD i default := by
  induction js with
  | nil => intro bl i h; rfl
  | cons j js ih =>
    intro bl i h
    rw [List.foldl_cons, ih _ _ (fun hm => h (List.mem_cons_of_mem _ hm)),
      rewriteTarget, updateBlock_getD_ne]
    intro he
    exact h (he ▸ List.mem_cons_self _ _)

theorem fold_rewrite_getD_mem (n disp : Nat) (js : List Nat) :
    ∀ (bl : List BBlock) (i : Nat), js.Nodup → i ∈ js → i < bl.length →
      (js.foldl (fun bl j => rewriteTarget n disp bl j) bl).getD i default
        = rewriteTargetBlock n disp (bl.getD i default) := by
  induction js with
  | nil => intro bl i _ h; cases h
  | cons j js ih =>
    intro bl i hnd hmem hlt
    rw [List.foldl_cons]
    rcases List.mem_cons.mp hmem with rfl | hmem2
    · rw [fold_rewrite_getD_notin n disp js _ _ (List.nodup_cons.mp hnd).1,
        rewriteTarget, updateBlock_getD_eq _ _ _ hlt]
    · rw [ih _ _ (List.nodup_cons.mp hnd).2 hmem2
        (by rw [rewriteTarget, updateBlock_length]; exact hlt),
        rewriteTarget, updateBlock_getD_ne]
      intro he
      subst he
      exact (List.nodup_cons.mp hnd).1 hmem2

/-- The shape of a rewritten flatten target: it keeps a return or
unreachable terminator, or it now stores the next state and branches
back to the dispatcher. -/
theorem rewriteTargetBlock_shape (n disp : Nat) (b : BBlock)
    (hsup : isSupportedTerminator b.term = true)
    (hsucc : ∀ s ∈ succsOf b, 1 ≤ s ∧ s < n) :
    (∃ v, (rewriteTargetBlock n disp b).term = some (.ret v))
    ∨ (rewriteTargetBlock n disp b).term = some .unreachable
    ∨ (∃ v rest, (rewriteTargetBlock n disp b).instrs
          = rest ++ [.store v "cff.state"]
        ∧ (rewriteTargetBlock n disp b).term = some (.br disp)) := by
  obtain ⟨eh, ins, tm⟩ := b
  rw [succsOf_eq] at hsucc
  match tm with
  | some (.ret v) => exact Or.inl ⟨v, rfl⟩
  | some .unreachable => exact Or.inr (Or.inl rfl)
  | some (.br d) =>
    right; right
    have hd : 1 ≤ d ∧ d < n := hsucc d (by simp [termSuccs, Term.succs])
    have hid : blockIdOf n d = some d := by rw [blockIdOf, if_pos hd]
    refine ⟨.cint (getInt32 d), ins, ?_, ?_⟩ <;>
      simp [rewriteTargetBlock, hid]
  | some (.condbr c td fd) =>
    right; right
    have htd : 1 ≤ td ∧ td < n := hsucc td (by simp [termSuccs, Term.succs])
    have hfd : 1 ≤ fd ∧ fd < n := hsucc fd (by simp [termSuccs, Term.succs])
    have hti : blockIdOf n td = some td := by rw [blockIdOf, if_pos htd]
    have hfi : blockIdOf n fd = some fd := by rw [blockIdOf, if_pos hfd]
    refine ⟨.reg "cff.next",
      ins ++ [.select "cff.next" c (.cint (getInt32 td)) (.cint (getInt32 fd))],
      ?_, ?_⟩ <;>
      simp [rewriteTargetBlock, hti, hfi]
  | some (.switch v d cs) =>
    right; right
    have hd : 1 ≤ d ∧ d < n := hsucc d (by simp [termSuccs, Term.succs])
    have hdid : blockIdOf n d = some d := by rw [blockIdOf, if_pos hd]
    have hsome : ∃ pr, buildNextStateSwitch n v d cs = some pr := by
      rw [buildNextStateSwitch, hdid]
      simp
    obtain ⟨pr, hpr⟩ := hsome
    refine ⟨pr.2, ins ++ pr.1, ?_, ?_⟩ <;>
      simp [rewriteTargetBlock, hpr]
  | some .unsupportedTerm => cases hsup
  | none => cases hsup

theorem caseFoldStep_mem (n : Nat) (v : Val) (acc : List CInstr × Val)
    (pr : Nat × Nat) (x : CInstr) (hx : x ∈ (caseFoldStep n v acc pr).1) :
    x ∈ acc.1 ∨ phiName x = none := by
  rw [caseFoldStep] at hx
  cases hbo : blockIdOf n pr.2 with
  | none => rw [hbo] at hx; exact Or.inl hx
  | some i =>
    rw [hbo] at hx
    simp only at hx
    rcases List.mem_append.mp hx with hx | hx
    · exact Or.inl hx
    · right
      simp at hx
      rcases hx with rfl | rfl <;> rfl

theorem caseFold_noPhi (n : Nat) (v : Val) :
    ∀ (cs : List (Nat × Nat)) (acc : List CInstr × Val),
      (∀ x ∈ acc.1, phiName x = none) →
      ∀ x ∈ (cs.foldl (caseFoldStep n v) acc).1, phiName x = none := by
  intro cs
  induction cs with
  | nil => intro acc hacc x hx; exact hacc x hx
  | cons c cs ih =>
    intro acc hacc x hx
    rw [List.foldl_cons] at hx
    refine ih _ ?_ x hx
    intro y hy
    rcases caseFoldStep_mem n v acc c y hy with hy2 | hy2
    · exact hacc y hy2
    · exact hy2

theorem buildNextStateSwitch_noPhi (n : Nat) (v : Val) (d : Nat)
    (cs : List (Nat × Nat)) (pr : List CInstr × Val)
    (h : buildNextStateSwitch n v d cs = some pr) :
    ∀ x ∈ pr.1, phiName x = none := by
  rw [buildNextStateSwitch] at h
  by_cases hc : (blockIdOf n d).isNone
      && cs.all (fun pr => (blockIdOf n pr.2).isNone)
  · rw [if_pos hc] at h; cases h
  · rw [if_neg hc] at h
    simp only [Option.some.injEq] at h
    intro x hx
    rw [← h] at hx
    exact caseFold_noPhi n v cs _ (by intro y hy; cases hy) x hx

/-- The instructions produced by the entry translation contain no phi. -/
theorem entryInitInstrs_noPhi (n : Nat) (t : Option Term)
    (inits : List CInstr) (h : entryInitInstrs n t = some inits) :
    ∀ x ∈ inits, phiName x = none := by
  match t with
  | some (.br d) =>
    rw [entryInitInstrs] at h
    cases hb : blockIdOf n d with
    | none => rw [hb] at h; cases h
    | some i =>
      rw [hb] at h
      simp only [Option.map_some', Option.some.injEq] at h
      subst h
      intro x hx
      simp at hx
      subst hx
      rfl
  | some (.condbr c td fd) =>
    rw [entryInitInstrs] at h
    cases ht : blockIdOf n td with
    | none => rw [ht] at h; cases h
    | some ti =>
      cases hf : blockIdOf n fd with
      | none => rw [ht, hf] at h; cases h
      | some fi =>
        rw [ht, hf] at h
        simp only [Option.some.injEq] at h
        subst h
        intro x hx
        simp at hx
        rcases hx with rfl | rfl <;> rfl
  | some (.switch v d cs) =>
    rw [entryInitInstrs] at h
    cases hb : buildNextStateSwitch n v d cs with
    | none => rw [hb] at h; cases h
    | some pr =>
      rw [hb] at h
      simp only [Option.map_some', Option.some.injEq] at h
      subst h
      intro x hx
      rcases List.mem_append.mp hx with hx | hx
      · exact buildNextStateSwitch_noPhi n v d cs pr hb x hx
      · simp at hx; subst hx; rfl
  | some (.ret v) => simp [entryInitInstrs] at h
  | some .unreachable => simp [entryInitInstrs] at h
  | some .unsupportedTerm => simp [entryInitInstrs] at h
  | none => simp [entryInitInstrs] at h

/-- The entry translation succeeds when the entry terminator has
successors and every successor is a mapped (non-entry, in-function)
block. -/
theorem entryInitInstrs_isSome (n : Nat) (t : Option Term)
    (hhas : hasSuccTerm t = true)
    (hsucc : ∀ s ∈ termSuccs t, 1 ≤ s ∧ s < n) :
    (entryInitInstrs n t).isSome := by
  match t with
  | some (.br d) =>
    have hd := hsucc d (by simp [termSuccs, Term.succs])
    rw [entryInitInstrs, blockIdOf, if_pos hd]
    rfl
  | some (.condbr c td fd) =>
    have htd := hsucc td (by simp [termSuccs, Term.succs])
    have hfd := hsucc fd (by simp [termSuccs, Term.succs])
    rw [entryInitInstrs]
    rw [blockIdOf, if_pos htd, blockIdOf, if_pos hfd]
    rfl
  | some (.switch v d cs) =>
    have hd := hsucc d (by simp [termSuccs, Term.succs])
    rw [entryInitInstrs, buildNextStateSwitch, blockIdOf, if_pos hd]
    simp
  | some (.ret v) => cases hhas
  | some .unreachable => cases hhas
  | some .unsupportedTerm => cases hhas
  | none => cases hhas

/-- No phi anywhere, phrased per block. -/
theorem collectPhiNames_eq_nil_iff (bl : List BBlock) :
    collectPhiNames bl = [] ↔ ∀ b ∈ bl, perNames b = [] := by
  rw [collectPhiNames_eq, List.flatten_eq_nil_iff]
  constructor
  · intro h b hb
    exact h _ (List.mem_map.mpr ⟨b, hb, rfl⟩)
  · intro h l hl
    rcases List.mem_map.mp hl with ⟨b, hb, rfl⟩
    exact h b hb

theorem rewriteTargetBlock_perNames (n disp : Nat) (b : BBlock)
    (h : perNames b = []) : perNames (rewriteTargetBlock n disp b) = [] := by
  obtain ⟨eh, ins, tm⟩ := b
  have hins : ins.filterMap phiName = [] := h
  match tm with
  | some (.ret v) => exact h
  | some .unreachable => exact h
  | none => exact h
  | some .unsupportedTerm => exact h
  | some (.br d) =>
    cases hid : blockIdOf n d with
    | none => simpa [rewriteTargetBlock, hid] using h
    | some i =>
      simp [rewriteTargetBlock, hid, perNames, List.filterMap_append,
        phiName, hins]
  | some (.condbr c td fd) =>
    cases hti : blockIdOf n td with
    | none => simpa [rewriteTargetBlock, hti] using h
    | some ti =>
      cases hfi : blockIdOf n fd with
      | none => simpa [rewriteTargetBlock, hti, hfi] using h
      | some fi =>
        simp [rewriteTargetBlock, hti, hfi, perNames, List.filterMap_append,
          phiName, hins]
  | some (.switch v d cs) =>
    cases hbn : buildNextStateSwitch n v d cs with
    | none => simpa [rewriteTargetBlock, hbn] using h
    | some pr =>
      have hpr1 : pr.1.filterMap phiName = [] :=
        List.filterMap_eq_nil_iff.mpr (buildNextStateSwitch_noPhi n v d cs pr hbn)
      simp [rewriteTargetBlock, hbn, perNames, List.filterMap_append,
        phiName, hins, hpr1]

/-! ### Reachability and cleanup -/

theorem reachStep_subset (blocks : List BBlock) (R : List Nat) :
    ∀ x ∈ R, x ∈ reachStep blocks R := by
  intro x hx
  exact List.mem_append_left _ hx

theorem reachStep_succ (blocks : List BBlock) (R : List Nat) (i s : Nat)
    (hi : i ∈ R) (hs : s ∈ succsOf (blocks.getD i default)) :
    s ∈ reachStep blocks R := by
  by_cases hsR : s ∈ R
  · exact List.mem_append_left _ hsR
  · refine List.mem_append_right _ ?_
    refine List.mem_filter.mpr ⟨?_, ?_⟩
    · exact List.mem_flatten.mpr
        ⟨succsOf (blocks.getD i default), List.mem_map.mpr ⟨i, hi, rfl⟩, hs⟩
    · simp only [Bool.not_eq_true']
      cases hc : R.contains s with
      | false => rfl
      | true => exact absurd (List.mem_of_elem_eq_true hc) hsR

theorem fold_reachStep_subset (blocks : List BBlock) :
    ∀ (L : List Nat) (R : List Nat) (x : Nat), x ∈ R →
      x ∈ L.foldl (fun R _ => reachStep blocks R) R := by
  intro L
  induction L with
  | nil => intro R x hx; exact hx
  | cons a L ih =>
    intro R x hx
    rw [List.foldl_cons]
    exact ih _ x (reachStep_subset blocks R x hx)

/-- When the entry only reaches the dispatcher and the dispatcher's
switch reaches the default block and every flatten target, two
expansion steps already cover every block. -/
theorem reachSet_covers (blocks : List BBlock) (n : Nat)
    (hlen : blocks.length = n + 2) (hn2 : 2 ≤ n)
    (h0 : succsOf (blocks.getD 0 default) = [n])
    (hd : ∀ i, (i = n + 1 ∨ (1 ≤ i ∧ i < n)) →
        i ∈ succsOf (blocks.getD n default)) :
    ∀ i < n + 2, i ∈ reachSet blocks := by
  intro i hi
  have hR1 : ∀ x, x = 0 ∨ x = n → x ∈ reachStep blocks [0] := by
    intro x hx
    rcases hx with rfl | rfl
    · exact reachStep_subset _ _ _ (by simp)
    · exact reachStep_succ _ _ 0 _ (by simp) (by rw [h0]; simp)
  have hR2 : i ∈ reachStep blocks (reachStep blocks [0]) := by
    rcases Nat.lt_or_ge i n with hin | hin
    · rcases Nat.eq_zero_or_pos i with rfl | hpos
      · exact reachStep_subset _ _ _ (hR1 0 (Or.inl rfl))
      · exact reachStep_succ _ _ n _ (hR1 n (Or.inr rfl))
          (hd i (Or.inr ⟨hpos, hin⟩))
    · rcases Nat.eq_or_lt_of_le hin with rfl | hgt
      · exact reachStep_subset _ _ _ (hR1 _ (Or.inr rfl))
      · have : i = n + 1 := by omega
        subst this
        exact reachStep_succ _ _ n _ (hR1 n (Or.inr rfl))
          (hd (n + 1) (Or.inl rfl))
  rw [reachSet, hlen]
  have hdec : List.range (n + 2) = 0 :: 1 :: List.range' 2 n := by
    rw [List.range_eq_range']
    rfl
  rw [hdec, List.foldl_cons, List.foldl_cons]
  exact fold_reachStep_subset blocks _ _ i hR2

theorem enumFrom_filter_all {α : Type} (p : Nat → Bool) :
    ∀ (l : List α) (k : Nat), (∀ i, i < l.length → p (k + i) = true) →
      ((List.enumFrom k l).filter fun pr => p pr.1).map Prod.snd = l := by
  intro l
  induction l with
  | nil => intro k h; rfl
  | cons a l ih =>
    intro k h
    have hk : p k = true := by simpa using h 0 (by simp)
    simp only [List.enumFrom, List.filter_cons, hk, if_true, List.map_cons]
    have h' : ∀ i, i < l.length → p (k + 1 + i) = true := by
      intro i hi
      have hh := h (i + 1) (by simpa using Nat.succ_lt_succ hi)
      simpa [Nat.add_comm, Nat.add_assoc, Nat.add_left_comm] using hh
    rw [ih (k + 1) h']

theorem removeUnreachableBlocks_id (blocks : List BBlock)
    (h : ∀ i < blocks.length, i ∈ reachSet blocks) :
    removeUnreachableBlocks blocks = blocks := by
  rw [removeUnreachableBlocks]
  rw [show blocks.enum = List.enumFrom 0 blocks from rfl]
  exact enumFrom_filter_all _ blocks 0 fun i hi =>
    List.elem_eq_true_of_mem (by simpa using h i hi)

/-! ### Characterizing the flatten stages block by block -/

theorem termSuccs_termShape (t : Option Term) :
    termSuccs (termShape t) = termSuccs t := by
  match t with
  | none => rfl
  | some (.br _) => rfl
  | some (.condbr _ _ _) => rfl
  | some (.switch _ _ _) => rfl
  | some (.ret _) => rfl
  | some .unreachable => rfl
  | some .unsupportedTerm => rfl

theorem hasSuccTerm_termShape (t : Option Term) :
    hasSuccTerm (termShape t) = hasSuccTerm t := by
  match t with
  | none => rfl
  | some (.br _) => rfl
  | some (.condbr _ _ _) => rfl
  | some (.switch _ _ _) => rfl
  | some (.ret _) => rfl
  | some .unreachable => rfl
  | some .unsupportedTerm => rfl

theorem isSupportedTerminator_termShape (t : Option Term) :
    isSupportedTerminator (termShape t) = isSupportedTerminator t := by
  match t with
  | none => rfl
  | some (.br _) => rfl
  | some (.condbr _ _ _) => rfl
  | some (.switch _ _ _) => rfl
  | some (.ret _) => rfl
  | some .unreachable => rfl
  | some .unsupportedTerm => rfl

theorem termSuccs_of_shape_eq {t1 t2 : Option Term}
    (h : termShape t1 = termShape t2) : termSuccs t1 = termSuccs t2 := by
  rw [← termSuccs_termShape t1, h, termSuccs_termShape]

theorem hasSuccTerm_of_shape_eq {t1 t2 : Option Term}
    (h : termShape t1 = termShape t2) : hasSuccTerm t1 = hasSuccTerm t2 := by
  rw [← hasSuccTerm_termShape t1, h, hasSuccTerm_termShape]

theorem isSupportedTerminator_of_shape_eq {t1 t2 : Option Term}
    (h : termShape t1 = termShape t2) :
    isSupportedTerminator t1 = isSupportedTerminator t2 := by
  rw [← isSupportedTerminator_termShape t1, h, isSupportedTerminator_termShape]

theorem flattenPrepared_length (Fd : Fn) :
    (flattenPrepared Fd).length = Fd.blocks.length + 2 := by
  simp [flattenPrepared, updateBlock_length]

theorem flattenPrepared_getD_zero (Fd : Fn) (h : 0 < Fd.blocks.length) :
    (flattenPrepared Fd).getD 0 default =
      { Fd.blocks.getD 0 default with instrs :=
          (insertAt (leadingPhis (Fd.blocks.getD 0 default).instrs)
            [.alloca "cff.state"] (Fd.blocks.getD 0 default).instrs) } := by
  rw [flattenPrepared,
    List.getD_append _ _ _ _ (by rw [updateBlock_length]; exact h),
    updateBlock_getD_eq _ _ _ h]

theorem flattenPrepared_getD_mid (Fd : Fn) (i : Nat)
    (hi : i < Fd.blocks.length) (hne : i ≠ 0) :
    (flattenPrepared Fd).getD i default = Fd.blocks.getD i default := by
  rw [flattenPrepared,
    List.getD_append _ _ _ _ (by rw [updateBlock_length]; exact hi),
    updateBlock_getD_ne _ _ _ _ hne]

theorem flattenPrepared_getD_disp (Fd : Fn) :
    (flattenPrepared Fd).getD Fd.blocks.length default = ⟨false, [], none⟩ := by
  rw [flattenPrepared,
    List.getD_append_right _ _ _ _ (by rw [updateBlock_length])]
  rw [updateBlock_length]
  simp

theorem flattenPrepared_getD_dflt (Fd : Fn) :
    (flattenPrepared Fd).getD (Fd.blocks.length + 1) default
      = ⟨false, [], some .unreachable⟩ := by
  rw [flattenPrepared,
    List.getD_append_right _ _ _ _ (by rw [updateBlock_length]; omega)]
  rw [updateBlock_length]
  simp

/-- The index list over which the Step-E fold runs. -/
def targetIdxs (n : Nat) : List Nat := (List.range (n - 1)).map fun j => j + 1

theorem targetIdxs_nodup (n : Nat) : (targetIdxs n).Nodup :=
  (List.nodup_range _).map fun a b => by omega

theorem mem_targetIdxs (n i : Nat) (hn : 1 ≤ n) :
    i ∈ targetIdxs n ↔ 1 ≤ i ∧ i < n := by
  simp only [targetIdxs, List.mem_map, List.mem_range]
  constructor
  · rintro ⟨j, hj, rfl⟩; omega
  · rintro ⟨h1, h2⟩; exact ⟨i - 1, by omega, by omega⟩

theorem flattenBody_fold (Fd : Fn) (inits : List CInstr) :
    flattenBody Fd inits =
      (targetIdxs Fd.blocks.length).foldl
        (fun bl j => rewriteTarget Fd.blocks.length Fd.blocks.length bl j)
        (updateBlock
          (updateBlock (flattenPrepared Fd) 0 fun b =>
            { b with instrs := b.instrs ++ inits,
                     term := some (.br Fd.blocks.length) })
          Fd.blocks.length fun b =>
            { b with instrs := [.load "cff.cur" "cff.state"],
                     term := some (.switch (.reg "cff.cur")
                       (Fd.blocks.length + 1)
                       ((List.range (Fd.blocks.length - 1)).map fun j =>
                         (getInt32 (j + 1), j + 1))) }) := by
  rw [flattenBody, targetIdxs, List.foldl_map]

theorem flattenBody_length (Fd : Fn) (inits : List CInstr) :
    (flattenBody Fd inits).length = Fd.blocks.length + 2 := by
  rw [flattenBody_fold, fold_rewrite_length, updateBlock_length,
    updateBlock_length, flattenPrepared_length]

theorem flattenBody_getD_zero (Fd : Fn) (inits : List CInstr)
    (hn : 2 ≤ Fd.blocks.length) :
    (flattenBody Fd inits).getD 0 default =
      { Fd.blocks.getD 0 default with
        instrs := (insertAt (leadingPhis (Fd.blocks.getD 0 default).instrs)
            [.alloca "cff.state"] (Fd.blocks.getD 0 default).instrs) ++ inits,
        term := some (.br Fd.blocks.length) } := by
  rw [flattenBody_fold,
    fold_rewrite_getD_notin _ _ _ _ _
      (by rw [mem_targetIdxs _ _ (by omega)]; omega),
    updateBlock_getD_ne _ _ _ _ (by omega),
    updateBlock_getD_eq _ _ _ (by rw [flattenPrepared_length]; omega),
    flattenPrepared_getD_zero _ (by omega)]

theorem flattenBody_getD_disp (Fd : Fn) (inits : List CInstr)
    (hn : 2 ≤ Fd.blocks.length) :
    (flattenBody Fd inits).getD Fd.blocks.length default =
      ⟨false, [.load "cff.cur" "cff.state"],
        some (.switch (.reg "cff.cur") (Fd.blocks.length + 1)
          ((List.range (Fd.blocks.length - 1)).map fun j =>
            (getInt32 (j + 1), j + 1)))⟩ := by
  rw [flattenBody_fold,
    fold_rewrite_getD_notin _ _ _ _ _
      (by rw [mem_targetIdxs _ _ (by omega)]; omega),
    updateBlock_getD_eq _ _ _
      (by rw [updateBlock_length, flattenPrepared_length]; omega),
    updateBlock_getD_ne _ _ _ _ (by omega),
    flattenPrepared_getD_disp]

theorem flattenBody_getD_dflt (Fd : Fn) (inits : List CInstr)
    (hn : 2 ≤ Fd.blocks.length) :
    (flattenBody Fd inits).getD (Fd.blocks.length + 1) default
      = ⟨false, [], some .unreachable⟩ := by
  rw [flattenBody_fold,
    fold_rewrite_getD_notin _ _ _ _ _
      (by rw [mem_targetIdxs _ _ (by omega)]; omega),
    updateBlock_getD_ne _ _ _ _ (by omega),
    updateBlock_getD_ne _ _ _ _ (by omega),
    flattenPrepared_getD_dflt]

theorem flattenBody_getD_target (Fd : Fn) (inits : List CInstr) (i : Nat)
    (hn : 2 ≤ Fd.blocks.length) (h1 : 1 ≤ i) (h2 : i < Fd.blocks.length) :
    (flattenBody Fd inits).getD i default =
      rewriteTargetBlock Fd.blocks.length Fd.blocks.length
        (Fd.blocks.getD i default) := by
  rw [flattenBody_fold,
    fold_rewrite_getD_mem _ _ _ _ _ (targetIdxs_nodup _)
      ((mem_targetIdxs _ _ (by omega)).mpr ⟨h1, h2⟩)
      (by rw [updateBlock_length, updateBlock_length,
            flattenPrepared_length]; omega),
    updateBlock_getD_ne _ _ _ _ (by omega),
    updateBlock_getD_ne _ _ _ _ (by omega),
    flattenPrepared_getD_mid _ _ h2 (by omega)]

theorem any_eq_false_forall {α : Type} (l : List α) (p : α → Bool)
    (h : l.any p = false) : ∀ x ∈ l, p x = false := by
  rw [← Bool.not_eq_true, List.any_eq_true] at h
  intro x hx
  by_contra hc
  exact h ⟨x, hx, by simpa using hc⟩

/-- On the success path the pass returns `true` together with the
cleaned-up flattened body. -/
theorem flattenFunction_success (F0 : Fn)
    (hdecl : F0.isDecl = false) (hintr : F0.isIntrinsic = false)
    (hlen : 2 ≤ F0.blocks.length)
    (hcf : hasUnsupportedControlFlow F0 = false)
    (hskip : shouldSkipFunction F0 = false)
    (inits : List CInstr)
    (hinit : entryInitInstrs (demoteValuesToMemory F0).blocks.length
        ((flattenPrepared (demoteValuesToMemory F0)).getD 0 default).term
      = some inits) :
    flattenFunction F0 =
      (true, { demoteValuesToMemory F0 with blocks :=
        (removeUnreachableBlocks
          (flattenBody (demoteValuesToMemory F0) inits)) }) := by
  have h1 : ¬ (F0.blocks.length < 2) := by omega
  have h2 : ¬ ((demoteValuesToMemory F0).blocks.length < 2) := by
    rw [demote_length]; omega
  rw [flattenFunction]
  rw [if_neg (by simp [hdecl, hintr, h1])]
  rw [if_neg (by simp [hcf, hskip])]
  simp only [hinit, if_neg h2]

theorem demote_getD_sig2 (F0 : Fn) (i : Nat) (hi : i < F0.blocks.length) :
    sig2 ((demoteValuesToMemory F0).blocks.getD i default)
      = sig2 (F0.blocks.getD i default) :=
  sig2_getD_of_map_eq (demote_sig2 F0) i hi

theorem demote_getD_shape (F0 : Fn) (i : Nat) (hi : i < F0.blocks.length) :
    termShape ((demoteValuesToMemory F0).blocks.getD i default).term
      = termShape (F0.blocks.getD i default).term :=
  congrArg Prod.snd (demote_getD_sig2 F0 i hi)

theorem getD_mem_of_lt {α : Type} [Inhabited α] (l : List α) (i : Nat)
    (h : i < l.length) : l.getD i default ∈ l := by
  rw [List.getD_eq_getElem _ _ h]
  exact List.getElem_mem _

/-- Guard elimination: no unsupported control flow means every block is
a non-EH-pad with a supported terminator. -/
theorem hcf_blocks (F0 : Fn) (hcf : hasUnsupportedControlFlow F0 = false) :
    ∀ b ∈ F0.blocks,
      b.isEHPad = false ∧ isSupportedTerminator b.term = true := by
  intro b hb
  have := any_eq_false_forall _ _ hcf b hb
  constructor
  · cases h : b.isEHPad
    · rfl
    · rw [h] at this; simp at this
  · cases h : isSupportedTerminator b.term
    · rw [h] at this; simp at this
    · rfl

theorem demote_getD_supported (F0 : Fn)
    (hcf : hasUnsupportedControlFlow F0 = false) (i : Nat)
    (hi : i < F0.blocks.length) :
    isSupportedTerminator
      ((demoteValuesToMemory F0).blocks.getD i default).term = true := by
  rw [isSupportedTerminator_of_shape_eq (demote_getD_shape F0 i hi)]
  exact (hcf_blocks F0 hcf _ (getD_mem_of_lt _ _ hi)).2

theorem demote_getD_succ (F0 : Fn)
    (hsucc : ∀ b ∈ F0.blocks, ∀ s ∈ succsOf b,
      1 ≤ s ∧ s < F0.blocks.length) (i : Nat) (hi : i < F0.blocks.length) :
    ∀ s ∈ termSuccs ((demoteValuesToMemory F0).blocks.getD i default).term,
      1 ≤ s ∧ s < F0.blocks.length := by
  rw [termSuccs_of_shape_eq (demote_getD_shape F0 i hi)]
  intro s hs
  refine hsucc _ (getD_mem_of_lt _ _ hi) s ?_
  rw [succsOf_eq]
  exact hs

theorem demote_getD_perNames (F0 : Fn) (i : Nat) :
    perNames ((demoteValuesToMemory F0).blocks.getD i default) = [] := by
  by_cases hi : i < (demoteValuesToMemory F0).blocks.length
  · exact (collectPhiNames_eq_nil_iff _).mp (demote_noPhi F0) _
      (getD_mem_of_lt _ _ hi)
  · rw [List.getD_eq_default _ _ (by omega)]
    rfl

/-- After a successful flatten, no phi node remains in the body. -/
theorem flattenBody_noPhi (F0 : Fn) (inits : List CInstr)
    (hlen : 2 ≤ F0.blocks.length)
    (hinitsN : ∀ x ∈ inits, phiName x = none) :
    collectPhiNames (flattenBody (demoteValuesToMemory F0) inits) = [] := by
  have hlenFd : (demoteValuesToMemory F0).blocks.length = F0.blocks.length :=
    demote_length F0
  rw [collectPhiNames_eq_nil_iff]
  intro b hb
  obtain ⟨i, hi, he⟩ := List.mem_iff_getElem.mp hb
  have hgd : (flattenBody (demoteValuesToMemory F0) inits).getD i default = b := by
    rw [List.getD_eq_getElem _ _ hi]; exact he
  rw [flattenBody_length, hlenFd] at hi
  subst hgd
  rcases Nat.lt_or_ge i F0.blocks.length with hin | hin
  · rcases Nat.eq_zero_or_pos i with rfl | hpos
    · rw [flattenBody_getD_zero _ _ (by omega)]
      show (_ ++ inits).filterMap phiName = []
      rw [List.filterMap_append,
        insertAt_filterMap_phiName _ _ _ (by intro x hx; simp at hx; subst hx; rfl),
        List.filterMap_eq_nil_iff.mpr hinitsN]
      have := demote_getD_perNames F0 0
      rw [perNames] at this
      rw [this]
      rfl
    · rw [flattenBody_getD_target _ _ _ (by omega) hpos (by omega)]
      exact rewriteTargetBlock_perNames _ _ _ (demote_getD_perNames F0 i)
  · rcases Nat.eq_or_lt_of_le hin with rfl | hgt
    · rw [← hlenFd, flattenBody_getD_disp _ _ (by omega)]
      rfl
    · have : i = F0.blocks.length + 1 := by omega
      subst this
      rw [← hlenFd, flattenBody_getD_dflt _ _ (by omega)]
      rfl

/-- Every block of the flattened body is reachable, so the cleanup
removes nothing. -/
theorem flattenBody_cleanup (F0 : Fn) (inits : List CInstr)
    (hlen : 2 ≤ F0.blocks.length) :
    removeUnreachableBlocks (flattenBody (demoteValuesToMemory F0) inits)
      = flattenBody (demoteValuesToMemory F0) inits := by
  have hlenFd := demote_length F0
  have hn2 : 2 ≤ (demoteValuesToMemory F0).blocks.length := by omega
  have hB0 := flattenBody_getD_zero (demoteValuesToMemory F0) inits hn2
  have hBd := flattenBody_getD_disp (demoteValuesToMemory F0) inits hn2
  have hs0 : succsOf
        ((flattenBody (demoteValuesToMemory F0) inits).getD 0 default)
      = [(demoteValuesToMemory F0).blocks.length] := by
    rw [succsOf_eq, hB0]
    rfl
  have hsd : ∀ i, (i = (demoteValuesToMemory F0).blocks.length + 1
        ∨ (1 ≤ i ∧ i < (demoteValuesToMemory F0).blocks.length)) →
      i ∈ succsOf ((flattenBody (demoteValuesToMemory F0) inits).getD
        (demoteValuesToMemory F0).blocks.length default) := by
    intro i hi
    rw [succsOf_eq, hBd]
    simp only [termSuccs, Term.succs, List.map_map, List.mem_cons,
      List.mem_map, List.mem_range, Function.comp]
    rcases hi with rfl | hi
    · exact Or.inl rfl
    · exact Or.inr ⟨i - 1, by omega, by omega⟩
  apply removeUnreachableBlocks_id
  intro i hi
  rw [flattenBody_length] at hi
  exact reachSet_covers _ _ (flattenBody_length _ _) hn2 hs0 hsd i hi

/-- C3: after Control-Flow Flattening succeeds on a function (a
definition with at least two blocks, supported control flow, nothing to
skip, an entry terminator with successors, and all branch targets
proper in-function non-entry blocks), the result has: an entry ending
in an unconditional branch to the dispatcher; a dispatcher that loads
the state variable and switches on it with one case per non-entry
original block — the case identifiers being distinct, non-zero 32-bit
values — defaulting to a block holding a single `unreachable`; every
other block either ends in return/unreachable or in a store of the
next state to the state slot followed by a branch back to the
dispatcher; and no phi node anywhere. -/
theorem c3_flattened_function_shape (F0 : Fn)
    (hdecl : F0.isDecl = false) (hintr : F0.isIntrinsic = false)
    (hlen : 2 ≤ F0.blocks.length)
    (hcf : hasUnsupportedControlFlow F0 = false)
    (hskip : shouldSkipFunction F0 = false)
    (hentry : hasSuccTerm (F0.blocks.getD 0 default).term = true)
    (hsucc : ∀ b ∈ F0.blocks, ∀ s ∈ succsOf b,
        1 ≤ s ∧ s < F0.blocks.length)
    (h32 : F0.blocks.length ≤ 2 ^ 32) :
    (flattenFunction F0).1 = true
    ∧ (flattenFunction F0).2.blocks.length = F0.blocks.length + 2
    ∧ ((flattenFunction F0).2.blocks.getD 0 default).term
        = some (.br F0.blocks.length)
    ∧ (flattenFunction F0).2.blocks.getD F0.blocks.length default
        = ⟨false, [.load "cff.cur" "cff.state"],
            some (.switch (.reg "cff.cur") (F0.blocks.length + 1)
              ((List.range (F0.blocks.length - 1)).map fun j =>
                (getInt32 (j + 1), j + 1)))⟩
    ∧ (((List.range (F0.blocks.length - 1)).map fun j =>
          getInt32 (j + 1)).Nodup
        ∧ ∀ id ∈ (List.range (F0.blocks.length - 1)).map fun j =>
            getInt32 (j + 1), 1 ≤ id ∧ id < 2 ^ 32)
    ∧ (flattenFunction F0).2.blocks.getD (F0.blocks.length + 1) default
        = ⟨false, [], some .unreachable⟩
    ∧ (∀ i, 1 ≤ i → i < F0.blocks.length →
        (∃ v, ((flattenFunction F0).2.blocks.getD i default).term
            = some (.ret v))
        ∨ ((flattenFunction F0).2.blocks.getD i default).term
            = some .unreachable
        ∨ (∃ v rest, ((flattenFunction F0).2.blocks.getD i default).instrs
              = rest ++ [.store v "cff.state"]
            ∧ ((flattenFunction F0).2.blocks.getD i default).term
              = some (.br F0.blocks.length)))
    ∧ collectPhiNames (flattenFunction F0).2.blocks = [] := by
  have hlenFd : (demoteValuesToMemory F0).blocks.length = F0.blocks.length :=
    demote_length F0
  have hn2 : 2 ≤ (demoteValuesToMemory F0).blocks.length := by omega
  have hterm0 : ((flattenPrepared (demoteValuesToMemory F0)).getD 0 default).term
      = ((demoteValuesToMemory F0).blocks.getD 0 default).term := by
    rw [flattenPrepared_getD_zero _ (by omega)]
  have hsome : (entryInitInstrs (demoteValuesToMemory F0).blocks.length
      ((flattenPrepared (demoteValuesToMemory F0)).getD 0 default).term).isSome := by
    rw [hterm0]
    apply entryInitInstrs_isSome
    · rw [hasSuccTerm_of_shape_eq (demote_getD_shape F0 0 (by omega))]
      exact hentry
    · intro s hs
      have := demote_getD_succ F0 hsucc 0 (by omega) s hs
      exact ⟨this.1, by omega⟩
  obtain ⟨inits, hinit⟩ := Option.isSome_iff_exists.mp hsome
  have hinitsN : ∀ x ∈ inits, phiName x = none :=
    entryInitInstrs_noPhi _ _ _ hinit
  have hmain := flattenFunction_success F0 hdecl hintr hlen hcf hskip inits hinit
  have hflag : (flattenFunction F0).1 = true := by rw [hmain]
  have hblocks : (flattenFunction F0).2.blocks
      = flattenBody (demoteValuesToMemory F0) inits := by
    rw [hmain]
    exact flattenBody_cleanup F0 inits hlen
  have hids : (List.range (F0.blocks.length - 1)).map (fun j => getInt32 (j + 1))
      = (List.range (F0.blocks.length - 1)).map (fun j => j + 1) := by
    apply List.map_congr_left
    intro j hj
    rw [List.mem_range] at hj
    rw [getInt32, Nat.mod_eq_of_lt (by omega)]
  refine ⟨hflag, ?_, ?_, ?_, ⟨?_, ?_⟩, ?_, ?_, ?_⟩
  · rw [hblocks, flattenBody_length, hlenFd]
  · rw [hblocks, flattenBody_getD_zero _ _ hn2, hlenFd]
  · rw [hblocks, ← hlenFd, flattenBody_getD_disp _ _ hn2]
  · rw [hids]
    exact (List.nodup_range _).map fun a b => by omega
  · intro id hid
    rw [hids] at hid
    simp only [List.mem_map, List.mem_range] at hid
    obtain ⟨j, hj, rfl⟩ := hid
    omega
  · rw [hblocks, ← hlenFd, flattenBody_getD_dflt _ _ hn2]
  · intro i h1 h2
    rw [hblocks, ← hlenFd, flattenBody_getD_target _ _ _ hn2 h1 (by omega)]
    apply rewriteTargetBlock_shape
    · exact demote_getD_supported F0 hcf i (by omega)
    · intro s hs
      have := demote_getD_succ F0 hsucc i (by omega) s
        (by rw [← succsOf_eq]; exact hs)
      exact ⟨this.1, by omega⟩
  · rw [hblocks]
    exact flattenBody_noPhi F0 inits hlen hinitsN

/-- A three-block function: `entry: condbr c, b1, b2; b1: ret; b2: ret`. -/
def c3Fn : Fn :=
  ⟨false, false,
    [⟨false, [], some (.condbr (.reg "c") 1 2)⟩,
     ⟨false, [], some (.ret none)⟩,
     ⟨false, [], some (.ret none)⟩]⟩

theorem c3_flattened_function_shape_witness :
    (flattenFunction c3Fn).1 = true
    ∧ (flattenFunction c3Fn).2.blocks.length = 5
    ∧ collectPhiNames (flattenFunction c3Fn).2.blocks = [] := by
  have h := c3_flattened_function_shape c3Fn (by decide) (by decide)
    (by decide) (by decide) (by decide) (by decide) (by decide) (by decide)
  exact ⟨h.1, h.2.1, h.2.2.2.2.2.2.2⟩

end CFF

end Chakravyuha

namespace Chakravyuha

namespace FCI

/-! ### Fake Code Insertion (`FakeCodeInsertionPass.cpp`)

Blocks are identified by a numeric id standing for the `BasicBlock*`
pointer (the pass never consults names; the `fake.block.N` label is
decoration).  Fresh blocks receive ids above every existing id, the way
a fresh allocation yields a new pointer. -/

/-- An i32/i1 operand. -/
inductive FVal where
  | cint (n : Nat)
  | cbool (b : Bool)
  | reg (name : String)
deriving DecidableEq, Repr

/-- Non-terminator instructions, as far as the pass creates or
inspects them. -/
inductive FInstr where
  | phiF (name : String)
  | allocaF (name : String)
  | binop (kind : Nat) (name : String) (op1 op2 : FVal)
  | storeF (v : FVal) (slot : String) (volatile : Bool)
  | callF (name callee : String)
  | asmCallF (name : String)
  | otherF (name : String)
deriving DecidableEq, Repr

/-- Terminators; successors are block ids.  `otherTerm` stands for any
other terminator with the listed successors. -/
inductive FTermI where
  | brF (dest : Nat)
  | condbrF (cond : FVal) (tdest fdest : Nat)
  | retF
  | otherTerm (succIds : List Nat)
deriving DecidableEq, Repr, Inhabited

def termSuccsF : FTermI → List Nat
  | .brF d => [d]
  | .condbrF _ t f => [t, f]
  | .retF => []
  | .otherTerm l => l

structure FBlock where
  id : Nat
  instrs : List FInstr
  term : FTermI
deriving DecidableEq, Repr, Inhabited

structure FFn where
  isDecl : Bool
  availExternally : Bool
  blocks : List FBlock
deriving DecidableEq, Repr

/-- `chakravyuha::shouldSkipFunction` for this pass: inline assembly
or a call to `setjmp`/`_setjmp`/`longjmp`. -/
def shouldSkipFn (F : FFn) : Bool :=
  F.blocks.any fun b => b.instrs.any fun i =>
    match i with
    | .asmCallF _ => true
    | .callF _ callee =>
        callee == "setjmp" || callee == "_setjmp" || callee == "longjmp"
    | _ => false

def findBlock (blocks : List FBlock) (i : Nat) : Option FBlock :=
  blocks.find? fun b => b.id == i

def isPhiInstr : FInstr → Bool
  | .phiF _ => true
  | _ => false

/-- `isa<PHINode>(Successor->front())`, totalized over the lookup. -/
def frontIsPhi : Option FBlock → Bool
  | some b =>
    match b.instrs with
    | i :: _ => isPhiInstr i
    | [] => false
  | none => false

/-- The `originalBlocks` collection: blocks whose terminator has
exactly one successor whose front is not a phi. -/
def eligibleIds (blocks : List FBlock) : List Nat :=
  blocks.filterMap fun b =>
    match termSuccsF b.term with
    | [s] => if frontIsPhi (findBlock blocks s) then none else some b.id
    | _ => none

/-- `BasicBlock::Create(..., &F, originalSuccessor)`: the new block
goes right before the block with id `s` (at the end when there is no
such block, as with a null insert-before point). -/
def insertBeforeBlk : List FBlock → Nat → FBlock → List FBlock
  | [], _, nb => [nb]
  | b :: bs, s, nb =>
    if b.id = s then nb :: b :: bs else b :: insertBeforeBlk bs s nb

def insertAtF (k : Nat) (xs l : List FInstr) : List FInstr :=
  l.take k ++ xs ++ l.drop k

def leadingPhisF (l : List FInstr) : Nat :=
  (l.takeWhile isPhiInstr).length

/-- The random draws one call to the pass consumes, made explicit:
`numInstrs`, `opcode`, `rndVal` and the operand picks feed
`populateAndTerminateBlockWithJunk`; `numBlocks` and `pickBlock` feed
the insertion loop. -/
structure JunkOracle where
  numInstrs : Nat
  opcode : Nat → Nat
  rndVal : Nat → Nat
  pick1 : Nat → Nat
  pick2 : Nat → Nat

def junkKindName : Nat → String
  | 0 => "fake.add"
  | 1 => "fake.sub"
  | 2 => "fake.mul"
  | 3 => "fake.xor"
  | _ => "fake.shl"

structure JunkState where
  avail : List FVal
  instrs : List FInstr
  lastVal : Option FVal

/-- One round of the junk loop: pick two operands, push a fresh random
constant, emit one of the five fake binary operations and remember the
result. -/
def junkStep (o : JunkOracle) (st : JunkState) (i : Nat) : JunkState :=
  let op1 := st.avail.getD (o.pick1 i % st.avail.length) (.cint 42)
  let op2 := st.avail.getD (o.pick2 i % st.avail.length) (.cint 42)
  let avail1 := st.avail ++ [FVal.cint (o.rndVal i % 2 ^ 32)]
  let k := o.opcode i % 5
  let nm := junkKindName k ++ "." ++ toString i
  { avail := avail1 ++ [FVal.reg nm],
    instrs := st.instrs ++ [.binop k nm op1 op2],
    lastVal := some (FVal.reg nm) }

/-- `populateAndTerminateBlockWithJunk`: 2-30 junk instructions, a
volatile store of the last junk value to `dummy.var`, and an
unconditional branch to the successor. -/
def populateAndTerminate (o : JunkOracle) (succId : Nat) :
    List FInstr × FTermI :=
  let n := 2 + o.numInstrs % 29
  let st := (List.range n).foldl (junkStep o) ⟨[.cint 42], [], none⟩
  (match st.lastVal with
   | some v => st.instrs ++ [.storeF v "dummy.var" true]
   | none => st.instrs,
   .brF succId)

structure FciOracle where
  numBlocks : Nat
  pickBlock : Nat → Nat
  junk : Nat → JunkOracle

/-- The loop state: the block list, the not-yet-used eligible parents,
the next fresh block id, the report counter, the changed flag, and
the record of the (parent, fake, successor) triples inserted. -/
structure FciState where
  blocks : List FBlock
  avail : List Nat
  nextId : Nat
  counter : Nat
  changed : Bool
  inserted : List (Nat × Nat × Nat)

/-- One iteration of the insertion loop: pick a parent among the
remaining eligible blocks, create the fake block before the parent's
successor, fill and terminate it, and swap the parent's terminator for
`condbr false, fake, successor`. -/
def fciStep (o : FciOracle) (st : FciState) (i : Nat) : FciState :=
  if st.avail.isEmpty then st
  else
    let idx := o.pickBlock i % st.avail.length
    let p := st.avail.getD idx 0
    match findBlock st.blocks p with
    | none => st
    | some pb =>
      let s := (termSuccsF pb.term).getD 0 0
      let fid := st.nextId
      let pr := populateAndTerminate (o.junk i) s
      let blocks1 := insertBeforeBlk st.blocks s ⟨fid, pr.1, pr.2⟩
      let blocks2 := blocks1.map fun b =>
        if b.id = p then { b with term := .condbrF (.cbool false) fid s }
        else b
      ⟨blocks2, st.avail.eraseIdx idx, st.nextId + 1, st.counter + 1, true,
        st.inserted ++ [(p, fid, s)]⟩

/-- A fresh id, above every block id in the function. -/
def freshId (blocks : List FBlock) : Nat :=
  (blocks.map FBlock.id).foldr max 0 + 1

/-- The `dummy.var` alloca goes to the entry's first insertion point. -/
def entryWithAlloca : List FBlock → List FBlock
  | [] => []
  | b :: bs =>
    { b with instrs :=
        (insertAtF (leadingPhisF b.instrs) [.allocaF "dummy.var"]
          b.instrs) } :: bs

/-- `addFakeCodeToFunction`, with the inserted triples recorded:
guards, the `dummy.var` alloca at the entry's first insertion point,
the `originalBlocks` collection, then 1-15 insertion rounds. -/
def addFakeCodeToFunction (o : FciOracle) (F : FFn) :
    Bool × List FBlock × List (Nat × Nat × Nat) :=
  if F.isDecl || F.availExternally || F.blocks.isEmpty || shouldSkipFn F then
    (false, F.blocks, [])
  else
    let blocksE := entryWithAlloca F.blocks
    let origs := eligibleIds blocksE
    if origs.isEmpty then (false, blocksE, [])
    else
      let numIns := 1 + o.numBlocks % 15
      let st := (List.range numIns).foldl (fciStep o)
        ⟨blocksE, origs, freshId blocksE, 0, false, []⟩
      (st.changed, st.blocks, st.inserted)

/-! ### Lookup stability lemmas -/

theorem findBlock_id (bl : List FBlock) (q : Nat) (b : FBlock)
    (h : findBlock bl q = some b) : b.id = q := by
  have := List.find?_some h
  simpa using this

theorem findBlock_insertBefore_ne (bl : List FBlock) (s : Nat) (nb : FBlock)
    (q : Nat) (hq : nb.id ≠ q) :
    findBlock (insertBeforeBlk bl s nb) q = findBlock bl q := by
  induction bl with
  | nil =>
    rw [insertBeforeBlk, findBlock,
      List.find?_cons_of_neg _ (by simpa using hq)]
    rfl
  | cons b bs ih =>
    rw [insertBeforeBlk]
    by_cases hb : b.id = s
    · rw [if_pos hb, findBlock,
        List.find?_cons_of_neg _ (by simpa using hq)]
      rfl
    · rw [if_neg hb, findBlock, findBlock]
      by_cases hbq : b.id = q
      · rw [List.find?_cons_of_pos _ (by simpa using hbq),
          List.find?_cons_of_pos _ (by simpa using hbq)]
      · rw [List.find?_cons_of_neg _ (by simpa using hbq),
          List.find?_cons_of_neg _ (by simpa using hbq)]
        exact ih

theorem findBlock_insertBefore_self (bl : List FBlock) (s : Nat) (nb : FBlock)
    (hfresh : ∀ b ∈ bl, b.id ≠ nb.id) :
    findBlock (insertBeforeBlk bl s nb) nb.id = some nb := by
  induction bl with
  | nil =>
    rw [insertBeforeBlk, findBlock, List.find?_cons_of_pos _ (by simp)]
  | cons b bs ih =>
    rw [insertBeforeBlk]
    by_cases hb : b.id = s
    · rw [if_pos hb, findBlock, List.find?_cons_of_pos _ (by simp)]
    · rw [if_neg hb, findBlock,
        List.find?_cons_of_neg _ (by simpa using hfresh b (by simp))]
      exact ih fun x hx => hfresh x (by simp [hx])

theorem findBlock_rewriteParent (bl : List FBlock) (p : Nat) (t : FTermI)
    (q : Nat) :
    findBlock (bl.map fun b =>
        if b.id = p then { b with term := t } else b) q
      = (findBlock bl q).map fun b =>
          if b.id = p then { b with term := t } else b := by
  have hid : ∀ b : FBlock,
      ((if b.id = p then { b with term := t } else b) : FBlock).id = b.id := by
    intro b
    by_cases h : b.id = p <;> simp [h]
  induction bl with
  | nil => rfl
  | cons b bs ih =>
    rw [List.map_cons, findBlock, findBlock]
    by_cases hbq : b.id = q
    · rw [List.find?_cons_of_pos _ (by simp only [hid]; simp [hbq]),
        List.find?_cons_of_pos _ (by simp [hbq])]
      rfl
    · rw [List.find?_cons_of_neg _ (by simp only [hid]; simp [hbq]),
        List.find?_cons_of_neg _ (by simp [hbq])]
      exact ih

theorem mem_insertBefore (bl : List FBlock) (s : Nat) (nb x : FBlock) :
    x ∈ insertBeforeBlk bl s nb ↔ x = nb ∨ x ∈ bl := by
  induction bl with
  | nil => simp [insertBeforeBlk]
  | cons b bs ih =>
    rw [insertBeforeBlk]
    by_cases hb : b.id = s
    · rw [if_pos hb]
      simp only [List.mem_cons]
    · rw [if_neg hb]
      simp only [List.mem_cons, ih]
      tauto

theorem filterMap_id_sublist {α β : Type} (f : α → Option β) (g : α → β)
    (hf : ∀ a b, f a = some b → b = g a) (l : List α) :
    List.Sublist (l.filterMap f) (l.map g) := by
  induction l with
  | nil => simp
  | cons a l ih =>
    rw [List.filterMap_cons, List.map_cons]
    cases hfa : f a with
    | none => exact ih.cons _
    | some b =>
      rw [hf a b hfa]
      exact ih.cons₂ _

theorem eligibleIds_sublist (bl : List FBlock) :
    List.Sublist (eligibleIds bl) (bl.map FBlock.id) := by
  apply filterMap_id_sublist
  intro a b h
  match hts : termSuccsF a.term with
  | [] =>
    rw [hts] at h
    exact Option.noConfusion h
  | [s] =>
    rw [hts] at h
    have h' : (if frontIsPhi (findBlock bl s) then none else some a.id)
        = some b := h
    by_cases hph : frontIsPhi (findBlock bl s)
    · rw [if_pos hph] at h'
      exact Option.noConfusion h'
    · rw [if_neg hph] at h'
      exact (Option.some.inj h').symm
  | s :: s2 :: rest =>
    rw [hts] at h
    exact Option.noConfusion h

theorem le_foldr_max (l : List Nat) : ∀ x ∈ l, x ≤ l.foldr max 0 := by
  induction l with
  | nil => intro x hx; cases hx
  | cons a l ih =>
    intro x hx
    rcases List.mem_cons.mp hx with rfl | hx
    · exact Nat.le_max_left _ _
    · exact (ih x hx).trans (Nat.le_max_right _ _)

theorem freshId_gt (bl : List FBlock) : ∀ b ∈ bl, b.id < freshId bl := by
  intro b hb
  have : b.id ≤ (bl.map FBlock.id).foldr max 0 :=
    le_foldr_max _ _ (List.mem_map.mpr ⟨b, hb, rfl⟩)
  rw [freshId]
  omega

theorem getD_not_mem_eraseIdx (l : List Nat) (i : Nat) (hnd : l.Nodup)
    (hi : i < l.length) : l.getD i 0 ∉ l.eraseIdx i := by
  intro hmem
  obtain ⟨j, hj, hget⟩ := List.mem_eraseIdx_iff_get?.mp hmem
  have hjl : j < l.length := by
    by_contra hge
    rw [List.get?_eq_none.mpr (by omega)] at hget
    cases hget
  rw [List.get?_eq_get hjl] at hget
  have hg2 : l.get ⟨j, hjl⟩ = l.getD i 0 := Option.some.inj hget
  have hgd : l.get ⟨i, hi⟩ = l.getD i 0 := by
    rw [List.getD_eq_getElem _ _ hi]
    rfl
  have : (⟨j, hjl⟩ : Fin l.length) = ⟨i, hi⟩ := by
    apply List.nodup_iff_injective_get.mp hnd
    rw [hg2, hgd]
  exact hj (by simpa using congrArg Fin.val this)

theorem entryWithAlloca_ids (bl : List FBlock) :
    (entryWithAlloca bl).map FBlock.id = bl.map FBlock.id := by
  cases bl <;> rfl

theorem populateAndTerminate_term (o : JunkOracle) (s : Nat) :
    (populateAndTerminate o s).2 = .brF s := rfl

/-- The insertion-loop invariant: every recorded triple is visible in
the block list with the claimed branch shapes; ids stay below the
fresh-id watermark; the remaining parents are distinct, fresh relative
to the records, and below the watermark. -/
def FciInv (st : FciState) : Prop :=
  (∀ r ∈ st.inserted,
      (findBlock st.blocks r.1).map FBlock.term
        = some (.condbrF (.cbool false) r.2.1 r.2.2)
      ∧ (findBlock st.blocks r.2.1).map FBlock.term
        = some (.brF r.2.2))
  ∧ (∀ b ∈ st.blocks, b.id < st.nextId)
  ∧ (∀ a ∈ st.avail, a < st.nextId)
  ∧ st.avail.Nodup
  ∧ (∀ a ∈ st.avail, ∀ r ∈ st.inserted, a ≠ r.1 ∧ a ≠ r.2.1)
  ∧ (∀ r ∈ st.inserted, r.1 < st.nextId ∧ r.2.1 < st.nextId)

theorem fciStep_none (o : FciOracle) (i : Nat) (st : FciState)
    (hav : ¬ st.avail.isEmpty = true)
    (hfb : findBlock st.blocks
      (st.avail.getD (o.pickBlock i % st.avail.length) 0) = none) :
    fciStep o st i = st := by
  rw [fciStep, if_neg hav]
  simp only [hfb]

theorem fciStep_some (o : FciOracle) (i : Nat) (st : FciState) (pb : FBlock)
    (hav : ¬ st.avail.isEmpty = true)
    (hfb : findBlock st.blocks
      (st.avail.getD (o.pickBlock i % st.avail.length) 0) = some pb) :
    fciStep o st i =
      ⟨(insertBeforeBlk st.blocks ((termSuccsF pb.term).getD 0 0)
          ⟨st.nextId,
            (populateAndTerminate (o.junk i) ((termSuccsF pb.term).getD 0 0)).1,
            (populateAndTerminate (o.junk i) ((termSuccsF pb.term).getD 0 0)).2⟩).map
          (fun b =>
            if b.id = st.avail.getD (o.pickBlock i % st.avail.length) 0
            then { b with term :=
              (FTermI.condbrF (.cbool false) st.nextId
                ((termSuccsF pb.term).getD 0 0)) }
            else b),
        st.avail.eraseIdx (o.pickBlock i % st.avail.length),
        st.nextId + 1, st.counter + 1, true,
        st.inserted ++ [(st.avail.getD (o.pickBlock i % st.avail.length) 0,
          st.nextId, (termSuccsF pb.term).getD 0 0)]⟩ := by
  rw [fciStep, if_neg hav]
  simp only [hfb]

theorem fciStep_inv (o : FciOracle) (i : Nat) (st : FciState)
    (h : FciInv st) : FciInv (fciStep o st i) := by
  obtain ⟨h1, h2, h3, h4, h5, h6⟩ := h
  by_cases hav : st.avail.isEmpty
  · rw [fciStep, if_pos hav]
    exact ⟨h1, h2, h3, h4, h5, h6⟩
  · have hlen : 0 < st.avail.length := by
      cases hl : st.avail with
      | nil => rw [hl] at hav; simp at hav
      | cons a l => simp [hl]
    have hidx : o.pickBlock i % st.avail.length < st.avail.length :=
      Nat.mod_lt _ hlen
    cases hfb : findBlock st.blocks
        (st.avail.getD (o.pickBlock i % st.avail.length) 0) with
    | none =>
      rw [fciStep_none o i st hav hfb]
      exact ⟨h1, h2, h3, h4, h5, h6⟩
    | some pb =>
      rw [fciStep_some o i st pb hav hfb]
      set idx := o.pickBlock i % st.avail.length with hidxd
      set p := st.avail.getD idx 0 with hpd
      set s := (termSuccsF pb.term).getD 0 0 with hsd
      set fk : FBlock := ⟨st.nextId, (populateAndTerminate (o.junk i) s).1,
        (populateAndTerminate (o.junk i) s).2⟩ with hfkd
      set blocks1 := insertBeforeBlk st.blocks s fk with hb1d
      set g : FBlock → FBlock := fun b =>
        if b.id = p then { b with term := .condbrF (.cbool false) st.nextId s }
        else b with hgd
      have hpmem : p ∈ st.avail := by
        rw [hpd, List.getD_eq_getElem _ _ hidx]
        exact List.getElem_mem _
      have hplt : p < st.nextId := h3 p hpmem
      have hfid_not : ∀ b ∈ st.blocks, b.id ≠ st.nextId :=
        fun b hb => Nat.ne_of_lt (h2 b hb)
      have hfind1 : ∀ q, q < st.nextId →
          findBlock blocks1 q = findBlock st.blocks q := by
        intro q hq
        exact findBlock_insertBefore_ne _ _ _ _ (by
          show st.nextId ≠ q
          omega)
      have hfind1f : findBlock blocks1 st.nextId = some fk := by
        rw [hb1d]
        have hfi : st.nextId = fk.id := rfl
        rw [hfi]
        exact findBlock_insertBefore_self _ _ _ (by
          intro b hb
          exact hfid_not b hb)
      have hfind2 : ∀ q, findBlock (blocks1.map g) q
          = (findBlock blocks1 q).map g := by
        intro q
        exact findBlock_rewriteParent blocks1 p
          (.condbrF (.cbool false) st.nextId s) q
      refine ⟨?_, ?_, ?_, ?_, ?_, ?_⟩
      · intro r hr
        rcases List.mem_append.mp hr with hro | hrn
        · obtain ⟨hA, hB⟩ := h1 r hro
          obtain ⟨hr1, hr2⟩ := h6 r hro
          obtain ⟨hne1, hne2⟩ := h5 p hpmem r hro
          constructor
          · show ((findBlock (blocks1.map g) r.1).map FBlock.term) = _
            rw [hfind2, hfind1 _ hr1]
            obtain ⟨b0, hb0, hbt⟩ := Option.map_eq_some'.mp hA
            rw [hb0]
            have hb0id : b0.id = r.1 := findBlock_id _ _ _ hb0
            have hgb : g b0 = b0 := by
              rw [hgd]
              simp only []
              rw [if_neg (by rw [hb0id]; omega)]
            rw [Option.map_some', hgb, Option.map_some', hbt]
          · show ((findBlock (blocks1.map g) r.2.1).map FBlock.term) = _
            rw [hfind2, hfind1 _ hr2]
            obtain ⟨b0, hb0, hbt⟩ := Option.map_eq_some'.mp hB
            rw [hb0]
            have hb0id : b0.id = r.2.1 := findBlock_id _ _ _ hb0
            have hgb : g b0 = b0 := by
              rw [hgd]
              simp only []
              rw [if_neg (by rw [hb0id]; omega)]
            rw [Option.map_some', hgb, Option.map_some', hbt]
        · have hre : r = (p, st.nextId, s) := by simpa using hrn
          subst hre
          constructor
          · show ((findBlock (blocks1.map g) p).map FBlock.term) = _
            rw [hfind2, hfind1 _ hplt, hfb, Option.map_some']
            have hpbid : pb.id = p := findBlock_id _ _ _ hfb
            have hgp : g pb
                = { pb with term := .condbrF (.cbool false) st.nextId s } := by
              rw [hgd]
              simp only []
              rw [if_pos hpbid]
            rw [hgp]
            rfl
          · show ((findBlock (blocks1.map g) st.nextId).map FBlock.term) = _
            rw [hfind2, hfind1f, Option.map_some']
            have hgf : g fk = fk := by
              rw [hgd]
              simp only []
              rw [if_neg (by show fk.id ≠ p; show st.nextId ≠ p; omega)]
            rw [hgf]
            show some fk.term = _
            rw [show fk.term = (populateAndTerminate (o.junk i) s).2 from rfl,
              populateAndTerminate_term]
      · intro b hb
        obtain ⟨a, ha, hae⟩ := List.mem_map.mp hb
        have haid : b.id = a.id := by
          rw [← hae, hgd]
          by_cases hap : a.id = p <;> simp [hap]
        rcases (mem_insertBefore _ _ _ _).mp ha with rfl | ham
        · rw [haid]
          show fk.id < st.nextId + 1
          show st.nextId < st.nextId + 1
          omega
        · rw [haid]
          have := h2 a ham
          show a.id < st.nextId + 1
          omega
      · intro a ha
        have := h3 a ((List.eraseIdx_sublist _ _).mem ha)
        show a < st.nextId + 1
        omega
      · exact h4.sublist (List.eraseIdx_sublist _ _)
      · intro a ha r hr
        have hamem : a ∈ st.avail := (List.eraseIdx_sublist _ _).mem ha
        rcases List.mem_append.mp hr with hro | hrn
        · exact h5 a hamem r hro
        · have hre : r = (p, st.nextId, s) := by simpa using hrn
          subst hre
          constructor
          · show a ≠ p
            intro he
            subst he
            exact getD_not_mem_eraseIdx _ _ h4 hidx ha
          · show a ≠ st.nextId
            have := h3 a hamem
            omega
      · intro r hr
        show r.1 < st.nextId + 1 ∧ r.2.1 < st.nextId + 1
        rcases List.mem_append.mp hr with hro | hrn
        · obtain ⟨hr1, hr2⟩ := h6 r hro
          omega
        · have hre : r = (p, st.nextId, s) := by simpa using hrn
          subst hre
          exact ⟨by show p < st.nextId + 1; omega,
            by show st.nextId < st.nextId + 1; omega⟩

theorem fold_fciStep_inv (o : FciOracle) (L : List Nat) :
    ∀ st : FciState, FciInv st → FciInv (L.foldl (fciStep o) st) := by
  induction L with
  | nil => intro st h; exact h
  | cons a L ih =>
    intro st h
    rw [List.foldl_cons]
    exact ih _ (fciStep_inv o a st h)

/-- C8: every branch the Fake Code Insertion pass records is a
conditional branch on the literal constant `false` whose true
successor is the freshly created fake block and whose false successor
is the parent's original successor, and that fake block ends in an
unconditional branch to the same original successor.  The only
assumption is that the function's blocks are distinct objects
(distinct ids). -/
theorem c8_fake_branch_shape (o : FciOracle) (F : FFn)
    (hids : (F.blocks.map FBlock.id).Nodup) :
    ∀ r ∈ (addFakeCodeToFunction o F).2.2,
      (findBlock (addFakeCodeToFunction o F).2.1 r.1).map FBlock.term
        = some (.condbrF (.cbool false) r.2.1 r.2.2)
      ∧ (findBlock (addFakeCodeToFunction o F).2.1 r.2.1).map FBlock.term
        = some (.brF r.2.2) := by
  rw [addFakeCodeToFunction]
  by_cases hg : (F.isDecl || F.availExternally || F.blocks.isEmpty
      || shouldSkipFn F) = true
  · rw [if_pos hg]
    intro r hr
    cases hr
  · rw [if_neg hg]
    simp only []
    by_cases ho : (eligibleIds (entryWithAlloca F.blocks)).isEmpty = true
    · rw [if_pos ho]
      intro r hr
      cases hr
    · rw [if_neg ho]
      have hidsE : ((entryWithAlloca F.blocks).map FBlock.id).Nodup := by
        rw [entryWithAlloca_ids]
        exact hids
      have hinv0 : FciInv ⟨entryWithAlloca F.blocks,
          eligibleIds (entryWithAlloca F.blocks),
          freshId (entryWithAlloca F.blocks), 0, false, []⟩ := by
        refine ⟨?_, ?_, ?_, ?_, ?_, ?_⟩
        · intro r hr; cases hr
        · intro b hb; exact freshId_gt _ b hb
        · intro a ha
          obtain ⟨b, hb, hbe⟩ := List.mem_map.mp
            ((eligibleIds_sublist (entryWithAlloca F.blocks)).mem ha)
          rw [← hbe]
          exact freshId_gt _ b hb
        · exact hidsE.sublist (eligibleIds_sublist _)
        · intro a ha r hr; cases hr
        · intro r hr; cases hr
      have hfold := fold_fciStep_inv o
        (List.range (1 + o.numBlocks % 15)) _ hinv0
      intro r hr
      exact hfold.1 r hr

/-- A two-block function `b0: br b1; b1: ret` and a fixed draw. -/
def c8Fn : FFn := ⟨false, false, [⟨0, [], .brF 1⟩, ⟨1, [], .retF⟩]⟩

def c8Oracle : FciOracle :=
  ⟨0, fun _ => 0, fun _ => ⟨0, fun _ => 0, fun _ => 0, fun _ => 0, fun _ => 0⟩⟩

theorem c8_fake_branch_shape_witness :
    (addFakeCodeToFunction c8Oracle c8Fn).2.2 = [(0, 2, 1)]
    ∧ ((findBlock (addFakeCodeToFunction c8Oracle c8Fn).2.1 0).map FBlock.term
        = some (.condbrF (.cbool false) 2 1)
      ∧ (findBlock (addFakeCodeToFunction c8Oracle c8Fn).2.1 2).map FBlock.term
        = some (.brF 1)) :=
  ⟨by decide, c8_fake_branch_shape c8Oracle c8Fn (by decide) (0, 2, 1)
    (by decide)⟩
